import Mathlib

/-!
Verification of the line-range streaming engine of lrg (src/lrg.c, v1.1).

The development shallowly embeds the two core components of the program:

* the range-specification parser (lrg_read_linenum, lrg_next_linerange,
  lrg_parse_lines), and
* the buffered scan engine (lrg_processfile with its inner read loop, the
  rewind / backward-scan repositioning, and the read_error handling), plus
  the per-file loop of main.

Modelling conventions:

* C strings are List Char; the NUL terminator is the end of the list.
* linenum_t is unsigned long long (64 bits).  Parser-side overflow checks
  present in the C code (strtoull ERANGE, the line0 + linec wraparound
  test) are modelled explicitly against LINENUM_MAX = 2^64 - 1.  The
  engine-side line counter is modelled as Nat; its increments stay at or
  below range.last + 1 <= LINENUM_MAX + 1 in every run considered by the
  theorems below, so 64-bit wraparound never occurs there.
* An input stream is a deterministic byte list; read(fd, buf, n) on it
  yields min n (remaining) bytes and never fails, and seeks on a seekable
  stream succeed exactly when the resulting offset is nonnegative.  I/O
  failures (read returning -1, fwrite failing) are therefore not modelled;
  the error paths exercised by the claims (seek capability, premature EOF)
  are modelled in full.
* Recursive loops are written with an explicit fuel argument so that every
  definition is executable by the kernel; each wrapper supplies fuel that
  is proved (or at the call sites, chosen) to be sufficient, and the
  fuel-exhausted branch is never reached in any run appearing below.
-/

/-! ### Basic character and digit helpers -/

/-- C isspace in the C locale (LC_CTYPE is never changed by lrg). -/
def isSpaceC (c : Char) : Bool :=
  c = ' ' || c = '\t' || c = '\n' || c = '\x0b' || c = '\x0c' || c = '\r'

/-- C isdigit. -/
def isDigitC (c : Char) : Bool :=
  '0' ≤ c && c ≤ '9'

/-- Value of a decimal digit string (most significant first). -/
def digitsVal (l : List Char) : Nat :=
  l.foldl (fun a c => a * 10 + (c.toNat - '0'.toNat)) 0

/-- All characters are decimal digits. -/
def allDigits (l : List Char) : Bool :=
  l.all isDigitC

/-- memcnt from lrg.c: number of bytes equal to c in the buffer. -/
def memcnt (s : List Char) (c : Char) : Nat :=
  s.count c

/-- Number of newline bytes in a buffer. -/
def countNl (s : List Char) : Nat :=
  memcnt s '\n'

/-- ULLONG_MAX = 2^64 - 1: LINENUM_MAX of the C99 build. -/
def LINENUM_MAX : Nat := 18446744073709551615

/-- LRG_BACKWARD_SCAN_THRESHOLD (default build value). -/
def LRG_BACKWARD_SCAN_THRESHOLD : Nat := 128

/-! ### The range parser (lrg_read_linenum, lrg_next_linerange, lrg_parse_lines) -/

/-- Model of strtoull(s, &endptr, 10) as called from lrg_read_linenum: the
argument never starts with a minus sign (lrg_read_linenum intercepts that
case first), so only the optional plus sign is modelled.  Returns the value
strtoull would return, the endptr position, and whether errno was set to
ERANGE (value of the literal above ULLONG_MAX).  With no conversion the
endptr equals the argument and the value is 0.  strNum is the position
after the skipped whitespace and optional plus sign. -/
def strNum (s : List Char) : List Char :=
  if (s.dropWhile isSpaceC).head? = some '+' then (s.dropWhile isSpaceC).tail
  else s.dropWhile isSpaceC

def lrg_strtoull (s : List Char) : Nat × List Char × Bool :=
  if (strNum s).takeWhile isDigitC = [] then (0, s, false)
  else if LINENUM_MAX < digitsVal ((strNum s).takeWhile isDigitC) then
    (LINENUM_MAX, (strNum s).dropWhile isDigitC, true)
  else (digitsVal ((strNum s).takeWhile isDigitC), (strNum s).dropWhile isDigitC, false)

/-- The body of lrg_read_linenum on the whitespace-stripped position str.
none models the -1 return (overflow); some (ok, out, endptr) the other
returns, ok being the C return expression allow_zero || result != 0.  In
the leading-minus branch the C result 0 with endptr = str always satisfies
the fallback test (result == 0, and str == *endptr makes its second
disjunct true), so that branch returns the fallback directly.  The C
pointer comparison str == *endptr is modelled by list equality, which
coincides with pointer equality because the endptr is always a tail of
str. -/
def readlnAux (str : List Char) (fallback : Nat) (allowZero : Bool) :
    Option (Bool × Nat × List Char) :=
  if str.head? = some '-' then
    some (allowZero || decide (fallback ≠ 0), fallback, str)
  else if (lrg_strtoull str).2.2 then none
  else if (lrg_strtoull str).1 = 0 && (!allowZero || decide ((lrg_strtoull str).2.1 = str)) then
    some (allowZero || decide (fallback ≠ 0), fallback, (lrg_strtoull str).2.1)
  else
    some (allowZero || decide ((lrg_strtoull str).1 ≠ 0), (lrg_strtoull str).1,
      (lrg_strtoull str).2.1)

/-- lrg_read_linenum from lrg.c: skip leading whitespace, then parse. -/
def lrg_read_linenum (s : List Char) (fallback : Nat) (allowZero : Bool) :
    Option (Bool × Nat × List Char) :=
  readlnAux (s.dropWhile isSpaceC) fallback allowZero

/-- The clause-body part of lrg_next_linerange (everything before the
comma / end-of-string check): parses one clause N, N-M, N~M starting at s,
returning (start, end, endptr) or none for the -1 returns.  The sum
overflow test (line0 + linec < line0, an unsigned wraparound check on
64-bit values both at most LINENUM_MAX) is modelled as
LINENUM_MAX < line0 + linec. -/
def clausePart (s : List Char) : Option (Nat × Nat × List Char) :=
  match lrg_read_linenum s 0 false with
  | none => none
  | some (ok0, line0, e1) =>
    if !ok0 then none
    else if e1.head? = some '-' then
      match lrg_read_linenum e1.tail LINENUM_MAX false with
      | none => none
      | some (_, line1, e2) => some (line0, line1, e2)
    else if e1.head? = some '~' then
      match lrg_read_linenum e1.tail 3 true with
      | none => none
      | some (_, linec, e2) =>
        if LINENUM_MAX < line0 + linec then none
        else some (if linec < line0 then line0 - linec else 1, line0 + linec, e2)
    else some (line0, line0, e1)

/-- Result of lrg_next_linerange: done is the positive return (end of
string), err the negative return, ok carries *start, *end and the updated
*ptr (one past the separating comma when there is one). -/
inductive ParseStep where
  | done : ParseStep
  | err : ParseStep
  | ok : Nat → Nat → List Char → ParseStep
deriving DecidableEq, Repr

/-- lrg_next_linerange from lrg.c. -/
def lrg_next_linerange (s : List Char) : ParseStep :=
  if s = [] then .done
  else
    match clausePart s with
    | none => .err
    | some (a, b, rest) =>
      if rest.head? = some ',' then .ok a b rest.tail
      else if rest ≠ [] then .err
      else .ok a b rest

/-- One parsed range of the range table (struct lrg_linerange).  text is
the original clause as the C code exposes it for diagnostics: the clause
characters up to (not including) the separating comma, which
lrg_next_linerange overwrites with NUL, or up to the end of the
specification string for the final clause. -/
structure LineRange where
  first : Nat
  last : Nat
  text : List Char
deriving DecidableEq, Repr

/-- The diagnostic text of a clause: the consumed characters, with a
consumed separating comma (always the last consumed character when
present) removed, mirroring the *endptr++ = 0 overwrite in the source. -/
def clauseText (s rest : List Char) : List Char :=
  let consumed := s.take (s.length - rest.length)
  if consumed.getLast? = some ',' then consumed.dropLast else consumed

/-- lrg_parse_lines from lrg.c, with fuel (each successful clause consumes
at least one character, so s.length + 1 fuel always suffices; the fuel-0
branch is unreachable from the wrapper).  On failure the error value is
oldptr: the remainder of the specification starting at the malformed
clause.  Range-table allocation (and its failure path) is not modelled. -/
def lrg_parse_linesF : Nat → List Char → Except (List Char) (List LineRange)
  | 0, s => .error s
  | fuel+1, s =>
    match lrg_next_linerange s with
    | .done => .ok []
    | .err => .error s
    | .ok a b rest =>
      match lrg_parse_linesF fuel rest with
      | .error e => .error e
      | .ok rs => .ok (⟨a, b, clauseText s rest⟩ :: rs)

/-- lrg_parse_lines: wrapper supplying sufficient fuel. -/
def lrg_parse_lines (s : List Char) : Except (List Char) (List LineRange) :=
  lrg_parse_linesF (s.length + 1) s

deriving instance DecidableEq for Except

/-! ### The scan engine (lrg_processfile) -/

/-- Engine flags set by the command line (the flags relevant to the scan
engine; -f and the rate limiter do not affect the scan itself). -/
structure LrgFlags where
  show_linenums : Bool
  warn_noline : Bool
  error_on_eof : Bool
deriving DecidableEq, Repr

/-- One stdout emission of the engine: a printf of the line-number field
(LINE_DISPLAY_FMT) or an fwrite of a byte segment of the stream. -/
inductive OutItem where
  | lnum : Nat → OutItem
  | chunk : List Char → OutItem
deriving DecidableEq, Repr

/-- One stderr diagnostic of the engine. -/
inductive Diag where
  | eofBefore : Nat → Nat → Diag    -- lrg_eof_before fn target last
  | noRewind : List Char → Diag     -- lrg_no_rewind fn range.text
deriving DecidableEq, Repr

/-- The line-number field of LINE_DISPLAY_FMT " %7llu   ": a space, the
decimal digits right-justified in a 7-column field, three spaces. -/
def fmtLineNum (n : Nat) : List Char :=
  let ds := Nat.toDigits 10 n
  ' ' :: (List.replicate (7 - ds.length) ' ' ++ ds) ++ [' ', ' ', ' ']

/-- The stdout bytes produced by a list of emissions. -/
def flatOut : List OutItem → List Char
  | [] => []
  | .lnum n :: t => fmtLineNum n ++ flatOut t
  | .chunk s :: t => s ++ flatOut t

/-- The line numbers printed by a list of emissions, in order. -/
def lnums : List OutItem → List Nat
  | [] => []
  | .lnum n :: t => n :: lnums t
  | .chunk _ :: t => lnums t

/-- The mutable scan state of lrg_processfile: the stream offset of the
file descriptor, the buffer contents tmpbuf[0..buf_end), the consumed
offset buf_next - tmpbuf, the last read(2) result read_n, the current
line counter, the recorded end-of-stream line eof_at, and
show_this_linenum. -/
structure ScanSt where
  pos : Nat
  buf : List Char
  bn : Nat
  readN : Nat
  linenum : Nat
  eofAt : Nat
  showThis : Bool
deriving DecidableEq, Repr

/-- The segment from buf_next up to and including the next newline
(memchr), or the whole window when it contains no newline; the flag is
had_eol. -/
def takeLine : List Char → List Char × Bool
  | [] => ([], false)
  | c :: cs =>
    if c = '\n' then ([c], true)
    else
      let r := takeLine cs
      (c :: r.1, r.2)

/-- One iteration of the inner for(;;) loop of lrg_processfile after the
buffer window has been made nonempty: locate the newline, skip or emit the
segment, and either break (range.last completed) or continue through
next. -/
def scanConsume (shw : Bool) (first last : Nat)
    (next : ScanSt → ScanSt × List OutItem) (st : ScanSt) : ScanSt × List OutItem :=
  let w := st.buf.drop st.bn
  let t := takeLine w
  let bn2 := st.bn + t.1.length
  if st.linenum < first then
    next { st with bn := bn2, linenum := st.linenum + (if t.2 then 1 else 0) }
  else
    let pre : List OutItem := if st.showThis then [.lnum st.linenum] else []
    if t.2 then
      if st.linenum = last then
        ({ st with bn := bn2, linenum := st.linenum + 1, showThis := shw },
         pre ++ [.chunk t.1])
      else
        let res := next { st with bn := bn2, linenum := st.linenum + 1, showThis := shw }
        (res.1, pre ++ .chunk t.1 :: res.2)
    else
      let res := next { st with bn := bn2, showThis := false }
      (res.1, pre ++ .chunk t.1 :: res.2)

/-- The inner for(;;) loop of lrg_processfile, with fuel.  When the window
is exhausted the buffer is refilled by read(fd, tmpbuf, B); a read of 0
bytes is the goto read_error exit with read_n = 0 (the state is returned
for the read_error block of procRange to inspect).  The fuel-0 branch is
unreachable from the scanLoop wrapper, whose fuel exceeds the loop
measure. -/
def scanLoopF (σ : List Char) (B : Nat) (shw : Bool) (first last : Nat) :
    Nat → ScanSt → ScanSt × List OutItem
  | 0, st => (st, [])
  | fuel+1, st =>
    if st.buf.length ≤ st.bn then
      let chunk := (σ.drop st.pos).take B
      if chunk = [] then ({ st with readN := 0 }, [])
      else
        scanConsume shw first last (scanLoopF σ B shw first last fuel)
          { st with buf := chunk, bn := 0, pos := st.pos + chunk.length,
                    readN := chunk.length }
    else
      scanConsume shw first last (scanLoopF σ B shw first last fuel) st

/-- The inner loop with sufficient fuel: every iteration consumes at least
one byte of (σ.length - pos) + (buf.length - bn). -/
def scanLoop (σ : List Char) (B : Nat) (shw : Bool) (first last : Nat)
    (st : ScanSt) : ScanSt × List OutItem :=
  scanLoopF σ B shw first last ((σ.length - st.pos) + (st.buf.length - st.bn) + 1) st

/-- JUMP_LINE(1) after FILE_SEEK_SET(0): mark the window consumed, reset
the line counter, move the stream offset to 0.  (The seek itself is only
reached when can_seek holds, i.e. the probe seek of the same kind already
succeeded, so its failure branch is dead in this model.) -/
def rewindSt (st : ScanSt) : ScanSt :=
  { st with bn := st.buf.length, linenum := 1, pos := 0 }

/-- Result of the backward-scan loop: go (normal exit, buffer holds the
reloaded block), fallback (a backward seek failed: goto jump_backwards,
i.e. full rewind), or readErr (a reloaded block came up short: goto
read_error). -/
inductive BackRes where
  | go : ScanSt → BackRes
  | fallback : ScanSt → BackRes
  | readErr : ScanSt → BackRes

/-- The LRG_BACKWARD_SCAN while loop of lrg_processfile: while the line
counter has not yet dropped below range.first, seek backward by
read_n + LRG_BUFSIZE (failing, and falling back to a full rewind, when
that would move before offset 0), reload a full buffer and subtract its
newline count.  On normal exit buf_next = tmpbuf and
buf_end = tmpbuf + read_n.  A short reload is goto read_error (unreachable
here since the seek target plus B never passes the end of the stream); the
reload overwrites the first read_n bytes of the buffer while buf_end keeps
its stale value, which the state mirrors.  Fuel pos + 1 suffices whenever
B >= 1 since every iteration moves pos back by at least B. -/
def backScanF (σ : List Char) (B first : Nat) : Nat → ScanSt → BackRes
  | 0, st => .fallback st
  | fuel+1, st =>
    if st.linenum < first then
      .go { st with buf := st.buf.take st.readN, bn := 0 }
    else if st.pos < st.readN + B then .fallback st
    else
      let pos2 := st.pos - (st.readN + B)
      let chunk := (σ.drop pos2).take B
      if chunk.length < B then
        .readErr { st with pos := pos2 + chunk.length,
                           buf := chunk ++ st.buf.drop chunk.length,
                           readN := chunk.length }
      else
        backScanF σ B first fuel
          { st with pos := pos2 + B, buf := chunk, readN := B,
                    linenum := st.linenum - countNl chunk }

/-- Result of the repositioning step at the head of the range loop. -/
inductive Repos where
  | ok : ScanSt → Repos
  | cantSeek : Repos
  | readErr : ScanSt → Repos

/-- The do-we-need-to-go-back block of lrg_processfile.  bs is the
LRG_BACKWARD_SCAN build flag (1 on the POSIX build, 0 otherwise: then the
block is just the full rewind).  On entering the backward scan the line
counter is first rolled back to the line at the start of the buffer by
subtracting the newlines of the consumed part of the window. -/
def reposition (σ : List Char) (B : Nat) (bs canSeek : Bool) (first : Nat)
    (st : ScanSt) : Repos :=
  if first < st.linenum then
    if !canSeek then .cantSeek
    else if bs && decide (LRG_BACKWARD_SCAN_THRESHOLD < first)
            && decide (st.linenum / 2 < first) then
      let st₀ := { st with linenum := st.linenum - memcnt (st.buf.take st.bn) '\n' }
      match backScanF σ B first (st₀.pos + 1) st₀ with
      | .go st₁ => .ok st₁
      | .fallback st₁ => .ok (rewindSt st₁)
      | .readErr st₁ => .readErr st₁
    else .ok (rewindSt st)
  else .ok st

/-- Result of processing one range: cont proceeds to the next range with
the given state, halt is a return from lrg_processfile (return code, then
output, diagnostics, got_eof contribution). -/
inductive RRes where
  | cont : ScanSt → List OutItem → List Diag → Bool → RRes
  | halt : Nat → List OutItem → List Diag → Bool → RRes

/-- The read_error block at the bottom of the range loop of
lrg_processfile.  read_n < 0 cannot occur in this model (reads do not
fail).  On a recorded EOF for a non-open-ended range: set eof_at, warn
when -w is on (target is range.last when the first line was already
reached, else range.first), set got_eof, return 0 under -e, otherwise
restore read_n to the buffer length for later backward seek arithmetic. -/
def readErrorBlock (fl : LrgFlags) (r : LineRange) (st : ScanSt)
    (out : List OutItem) : RRes :=
  if st.readN = 0 ∧ r.last ≠ LINENUM_MAX then
    let ds := if fl.warn_noline then
        [Diag.eofBefore (if r.first ≤ st.linenum then r.last else r.first) st.linenum]
      else []
    if fl.error_on_eof then .halt 0 out ds true
    else .cont { st with eofAt := st.linenum, readN := st.buf.length } out ds true
  else .cont st out [] false

/-- One iteration of the range loop of lrg_processfile: skip empty
ranges, short-circuit ranges beyond a recorded EOF, reposition when the
target line is behind the cursor, then run the inner loop and the
read_error block. -/
def procRange (σ : List Char) (B : Nat) (fl : LrgFlags) (canSeek bs : Bool)
    (r : LineRange) (st : ScanSt) : RRes :=
  if r.last < r.first then .cont st [] [] false
  else if st.eofAt < r.first then
    let ds := if fl.warn_noline then [Diag.eofBefore r.first st.eofAt] else []
    if fl.error_on_eof then .halt 0 [] ds false
    else .cont st [] ds false
  else
    match reposition σ B bs canSeek r.first st with
    | .cantSeek => .halt 1 [] [Diag.noRewind r.text] false
    | .readErr st₁ => readErrorBlock fl r st₁ []
    | .ok st₁ =>
      let res := scanLoop σ B fl.show_linenums r.first r.last st₁
      readErrorBlock fl r res.1 res.2

/-- Aggregate result of lrg_processfile on one stream. -/
structure PFRes where
  out : List OutItem
  diags : List Diag
  rc : Nat
  gotEof : Bool
deriving DecidableEq, Repr

/-- The range loop of lrg_processfile. -/
def runRanges (σ : List Char) (B : Nat) (fl : LrgFlags) (canSeek bs : Bool) :
    List LineRange → ScanSt → PFRes
  | [], _ => ⟨[], [], 0, false⟩
  | r :: rs, st =>
    match procRange σ B fl canSeek bs r st with
    | .cont st₂ o d g =>
      let rest := runRanges σ B fl canSeek bs rs st₂
      ⟨o ++ rest.out, d ++ rest.diags, rest.rc, g || rest.gotEof⟩
    | .halt rc o d g => ⟨o, d, rc, g⟩

/-- The initial state of lrg_processfile: JUMP_LINE(1) with an empty
buffer, read_n = 0, eof_at = LINENUM_MAX, show_this_linenum =
show_linenums. -/
def initSt (fl : LrgFlags) : ScanSt :=
  ⟨0, [], 0, 0, 1, LINENUM_MAX, fl.show_linenums⟩

/-- lrg_processfile from lrg.c.  σ is the stream contents, B the
compile-time LRG_BUFSIZE, canSeek the result of the fseek probe, bs the
LRG_BACKWARD_SCAN build flag, table the parsed range table. -/
def lrg_processfile (σ : List Char) (B : Nat) (fl : LrgFlags)
    (canSeek bs : Bool) (table : List LineRange) : PFRes :=
  runRanges σ B fl canSeek bs table (initSt fl)

/-- The per-file loop of main: each input stream is a (contents, seekable)
pair; a nonzero lrg_processfile return makes main return EXITCODE_ERR at
once, otherwise after the loop the exit code is EXITCODE_ERR exactly when
-e is set and some stream hit EOF, else EXITCODE_OK.  The returned list
holds the (stdout, stderr) contributions of the streams actually
processed, in order. -/
def lrg_runF (B : Nat) (fl : LrgFlags) (bs : Bool) (table : List LineRange) :
    List (List Char × Bool) → Bool → List (List OutItem × List Diag) × Nat
  | [], ge => ([], if fl.error_on_eof && ge then 1 else 0)
  | f :: fs, ge =>
    let res := lrg_processfile f.1 B fl f.2 bs table
    if res.rc ≠ 0 then ([(res.out, res.diags)], 1)
    else
      let rest := lrg_runF B fl bs table fs (ge || res.gotEof)
      ((res.out, res.diags) :: rest.1, rest.2)

/-- main processing its input files (after a successful parse). -/
def lrg_run (B : Nat) (fl : LrgFlags) (bs : Bool) (table : List LineRange)
    (files : List (List Char × Bool)) : List (List OutItem × List Diag) × Nat :=
  lrg_runF B fl bs table files false

/-! ### Line structure of a stream, and the bufferless reference scanner

The definitions below are proof devices: a stream is decomposed into
lines (each including its terminating newline, except a final
unterminated line), and absScan replays the inner loop of
lrg_processfile working on the whole remaining stream instead of a
bounded window.  The simulation theorem scanLoopF_abs below shows the
buffered loop produces the same bytes and the same line-number events. -/

/-- Drop the first line (with its newline) of a stream. -/
def dropLine (l : List Char) : List Char :=
  l.drop (takeLine l).1.length

/-- Drop the first n lines of a stream. -/
def dropL : Nat → List Char → List Char
  | 0, l => l
  | n+1, l => dropL n (dropLine l)

/-- Number of lines of a stream, with fuel: a trailing fragment without a
final newline counts as a line. -/
def lineCountF : Nat → List Char → Nat
  | 0, _ => 0
  | fuel+1, l => if l = [] then 0 else lineCountF fuel (dropLine l) + 1

/-- Number of lines of a stream. -/
def lineCount (l : List Char) : Nat :=
  lineCountF (l.length + 1) l

/-- The bytes of the n-th line (1-based) of a stream, including its
newline when it has one. -/
def nthLine (l : List Char) (n : Nat) : List Char :=
  (takeLine (dropL (n - 1) l)).1

/-- Result of the reference scanner: emissions, final line counter, final
show_this_linenum, and whether the loop ended via break (range.last
completed) rather than end of stream. -/
structure AbsRes where
  out : List OutItem
  lin : Nat
  sh : Bool
  brk : Bool
deriving DecidableEq, Repr

/-- The reference scanner: the inner loop of lrg_processfile replayed on
the remaining stream bytes r without a window, consuming one whole
newline-terminated segment per step.  Fuel r.length + 1 suffices since
every step consumes at least one byte. -/
def absScanF (shw : Bool) (first last : Nat) : Nat → List Char → Nat → Bool → AbsRes
  | 0, _, lin, s => ⟨[], lin, s, false⟩
  | _+1, [], lin, s => ⟨[], lin, s, false⟩
  | fuel+1, r@(_ :: _), lin, s =>
    let t := takeLine r
    let rest := r.drop t.1.length
    if lin < first then
      absScanF shw first last fuel rest (lin + (if t.2 then 1 else 0)) s
    else
      let pre : List OutItem := if s then [.lnum lin] else []
      if t.2 then
        if lin = last then ⟨pre ++ [.chunk t.1], lin + 1, shw, true⟩
        else
          let res := absScanF shw first last fuel rest (lin + 1) shw
          ⟨pre ++ .chunk t.1 :: res.out, res.lin, res.sh, res.brk⟩
      else
        let res := absScanF shw first last fuel rest lin false
        ⟨pre ++ .chunk t.1 :: res.out, res.lin, res.sh, res.brk⟩

/-- The reference scanner with canonical fuel. -/
def absScan (shw : Bool) (first last : Nat) (r : List Char) (lin : Nat) (s : Bool) : AbsRes :=
  absScanF shw first last (r.length + 1) r lin s

/-- The window/stream coherence invariant tying a buffered scan state to
the absolute stream offset k of the byte at buf_next: the unconsumed
window followed by the unread stream is the stream from k on. -/
def StOk (σ : List Char) (st : ScanSt) (k : Nat) : Prop :=
  st.buf.drop st.bn ++ σ.drop st.pos = σ.drop k ∧ st.bn ≤ st.buf.length

/-- The head of the list, if any, is not a decimal digit (used to state
where a digit run ends). -/
def noDigitHead (l : List Char) : Bool :=
  match l with
  | [] => true
  | c :: _ => !isDigitC c

/-! ### Helper lemmas: output lists, characters, takeLine -/

theorem flatOut_append (a b : List OutItem) :
    flatOut (a ++ b) = flatOut a ++ flatOut b := by
  induction a with
  | nil => rfl
  | cons x t ih => cases x <;> simp [flatOut, ih]

theorem lnums_append (a b : List OutItem) :
    lnums (a ++ b) = lnums a ++ lnums b := by
  induction a with
  | nil => rfl
  | cons x t ih => cases x <;> simp [lnums, ih]

theorem isDigit_not_space {c : Char} (h : isDigitC c = true) : isSpaceC c = false := by
  by_contra hs
  have hs2 : isSpaceC c = true := by
    cases hb : isSpaceC c
    · exact absurd hb hs
    · rfl
  simp only [isSpaceC, Bool.or_eq_true, decide_eq_true_eq] at hs2
  rcases hs2 with ((((h1 | h1) | h1) | h1) | h1) | h1 <;> subst h1 <;>
    exact absurd h (by decide)

theorem isDigit_ne {c : Char} (h : isDigitC c = true) (d : Char)
    (hd : isDigitC d = false) : c ≠ d := by
  intro he
  subst he
  rw [h] at hd
  simp at hd

theorem takeLine_append_drop (l : List Char) :
    (takeLine l).1 ++ l.drop (takeLine l).1.length = l := by
  induction l with
  | nil => rfl
  | cons c cs ih =>
    by_cases h : c = '\n'
    · simp [takeLine, h]
    · simp only [takeLine, if_neg h, List.length_cons, List.cons_append,
        List.drop_succ_cons]
      exact congrArg (fun t => c :: t) ih

theorem takeLine_length_pos {l : List Char} (h : l ≠ []) :
    0 < (takeLine l).1.length := by
  cases l with
  | nil => exact absurd rfl h
  | cons c cs =>
    by_cases hc : c = '\n' <;> simp [takeLine, hc]

theorem takeLine_length_le (l : List Char) : (takeLine l).1.length ≤ l.length := by
  induction l with
  | nil => simp [takeLine]
  | cons c cs ih =>
    by_cases h : c = '\n'
    · simp [takeLine, h]
    · simp only [takeLine, if_neg h, List.length_cons]
      exact Nat.succ_le_succ ih

theorem takeLine_eol_append (w x : List Char) (h : (takeLine w).2 = true) :
    takeLine (w ++ x) = ((takeLine w).1, true) := by
  induction w with
  | nil => simp [takeLine] at h
  | cons c cs ih =>
    by_cases hc : c = '\n'
    · simp [takeLine, hc]
    · rw [List.cons_append]
      simp only [takeLine, if_neg hc] at h ⊢
      rw [ih h]

theorem takeLine_noeol_eq {w : List Char} (h : (takeLine w).2 = false) :
    (takeLine w).1 = w := by
  induction w with
  | nil => rfl
  | cons c cs ih =>
    by_cases hc : c = '\n'
    · simp [takeLine, hc] at h
    · simp only [takeLine, if_neg hc] at h ⊢
      rw [ih h]

theorem takeLine_noeol_append (w x : List Char) (hw : w ≠ [])
    (h : (takeLine w).2 = false) :
    takeLine (w ++ x) = (w ++ (takeLine x).1, (takeLine x).2) := by
  induction w with
  | nil => exact absurd rfl hw
  | cons c cs ih =>
    by_cases hc : c = '\n'
    · simp [takeLine, hc] at h
    · rw [List.cons_append]
      simp only [takeLine, if_neg hc] at h ⊢
      cases cs with
      | nil => simp [takeLine]
      | cons d ds =>
        rw [ih (by simp) h]
        simp

/-! ### Parser lemmas: suffixes, consumption, digit-string evaluation -/

theorem dropWhile_sfx (p : Char → Bool) (l : List Char) :
    ∃ t, t ++ l.dropWhile p = l := by
  induction l with
  | nil => exact ⟨[], rfl⟩
  | cons c cs ih =>
    by_cases h : p c
    · obtain ⟨t, ht⟩ := ih
      exact ⟨c :: t, by simp [List.dropWhile_cons, h, ht]⟩
    · exact ⟨[], by simp [List.dropWhile_cons, h]⟩

theorem tail_sfx (l : List Char) : ∃ t, t ++ l.tail = l := by
  cases l with
  | nil => exact ⟨[], rfl⟩
  | cons c cs => exact ⟨[c], rfl⟩

theorem sfx_trans {a b c : List Char} (h1 : ∃ t, t ++ a = b) (h2 : ∃ t, t ++ b = c) :
    ∃ t, t ++ a = c := by
  obtain ⟨t1, ht1⟩ := h1
  obtain ⟨t2, ht2⟩ := h2
  exact ⟨t2 ++ t1, by rw [List.append_assoc, ht1, ht2]⟩

theorem sfx_length_le {a b : List Char} (h : ∃ t, t ++ a = b) : a.length ≤ b.length := by
  obtain ⟨t, ht⟩ := h
  subst ht
  simp


theorem strNum_sfx (s : List Char) : ∃ t, t ++ strNum s = s := by
  unfold strNum
  by_cases hp : (s.dropWhile isSpaceC).head? = some '+'
  · rw [if_pos hp]
    exact sfx_trans (tail_sfx _) (dropWhile_sfx _ _)
  · rw [if_neg hp]
    exact dropWhile_sfx _ _

theorem strNum_length_le (s : List Char) : (strNum s).length ≤ s.length :=
  sfx_length_le (strNum_sfx s)

theorem droplen_lt (l : List Char) (h : l.takeWhile isDigitC ≠ []) :
    (l.dropWhile isDigitC).length < l.length := by
  have heq : l.takeWhile isDigitC ++ l.dropWhile isDigitC = l :=
    List.takeWhile_append_dropWhile isDigitC l
  have h1 : (l.takeWhile isDigitC).length + (l.dropWhile isDigitC).length = l.length := by
    rw [← List.length_append, heq]
  have h2 : 0 < (l.takeWhile isDigitC).length := List.length_pos.mpr h
  omega

theorem strtoull_sfx (s : List Char) : ∃ t, t ++ (lrg_strtoull s).2.1 = s := by
  unfold lrg_strtoull
  split_ifs with h1 h2
  · exact ⟨[], rfl⟩
  · exact sfx_trans (dropWhile_sfx _ _) (strNum_sfx s)
  · exact sfx_trans (dropWhile_sfx _ _) (strNum_sfx s)

theorem strtoull_conv_lt (s : List Char) (h : (lrg_strtoull s).1 ≠ 0) :
    (lrg_strtoull s).2.1.length < s.length := by
  by_cases h1 : (strNum s).takeWhile isDigitC = []
  · exfalso
    apply h
    unfold lrg_strtoull
    rw [if_pos h1]
  · have key := droplen_lt (strNum s) h1
    have h3 := strNum_length_le s
    unfold lrg_strtoull
    rw [if_neg h1]
    by_cases h2 : LINENUM_MAX < digitsVal ((strNum s).takeWhile isDigitC)
    · rw [if_pos h2]
      show ((strNum s).dropWhile isDigitC).length < s.length
      omega
    · rw [if_neg h2]
      show ((strNum s).dropWhile isDigitC).length < s.length
      omega

theorem readln_sfx {s : List Char} {fb : Nat} {az : Bool} {r : Bool × Nat × List Char}
    (h : lrg_read_linenum s fb az = some r) : ∃ t, t ++ r.2.2 = s := by
  unfold lrg_read_linenum readlnAux at h
  split_ifs at h with h1 h2 h3
  · obtain rfl := Option.some.inj h
    exact dropWhile_sfx _ _
  · obtain rfl := Option.some.inj h
    exact sfx_trans (strtoull_sfx _) (dropWhile_sfx _ _)
  · obtain rfl := Option.some.inj h
    exact sfx_trans (strtoull_sfx _) (dropWhile_sfx _ _)

theorem readln_first_ok {s : List Char} {n : Nat} {e : List Char}
    (h : lrg_read_linenum s 0 false = some (true, n, e)) :
    e.length < s.length ∧ (∃ t, t ++ e = s) ∧ n ≠ 0 := by
  have hsfx : ∃ t, t ++ e = s := readln_sfx h
  unfold lrg_read_linenum readlnAux at h
  split_ifs at h with h1 h2 h3
  · simp at h
  · simp at h
  · simp only [Option.some.injEq, Prod.mk.injEq, Bool.false_or] at h
    obtain ⟨hok, hn, he⟩ := h
    have hv : (lrg_strtoull (s.dropWhile isSpaceC)).1 ≠ 0 := by simpa using hok
    refine ⟨?_, hsfx, ?_⟩
    · have h4 := strtoull_conv_lt _ hv
      have h5 : (s.dropWhile isSpaceC).length ≤ s.length :=
        sfx_length_le (dropWhile_sfx _ _)
      rw [← he]
      omega
    · rw [← hn]
      exact hv

theorem clausePart_sfx_lt {s : List Char} {a b : Nat} {rest : List Char}
    (h : clausePart s = some (a, b, rest)) :
    (∃ t, t ++ rest = s) ∧ rest.length < s.length := by
  unfold clausePart at h
  cases hr : lrg_read_linenum s 0 false with
  | none => rw [hr] at h; simp at h
  | some v =>
    obtain ⟨ok0, line0, e1⟩ := v
    rw [hr] at h
    cases ok0 with
    | false => simp at h
    | true =>
      obtain ⟨hfl, hfs, _⟩ := readln_first_ok hr
      simp only [Bool.not_true, Bool.false_eq_true, if_false] at h
      have htl : ∃ t, t ++ e1.tail = s := sfx_trans (tail_sfx e1) hfs
      have htll : e1.tail.length ≤ e1.length := by
        cases e1 <;> simp
      split_ifs at h with hd ht
      · cases hr2 : lrg_read_linenum e1.tail LINENUM_MAX false with
        | none => rw [hr2] at h; simp at h
        | some v2 =>
          obtain ⟨ok1, line1, e2⟩ := v2
          rw [hr2] at h
          simp only [Option.some.injEq, Prod.mk.injEq] at h
          obtain ⟨-, -, rfl⟩ := h
          have h2 := readln_sfx hr2
          exact ⟨sfx_trans h2 htl, by
            have := sfx_length_le h2
            simp at this
            omega⟩
      · cases hr2 : lrg_read_linenum e1.tail 3 true with
        | none => rw [hr2] at h; simp at h
        | some v2 =>
          obtain ⟨ok1, linec, e2⟩ := v2
          rw [hr2] at h
          have h3 : (if LINENUM_MAX < line0 + linec then none
              else some (if linec < line0 then line0 - linec else 1,
                line0 + linec, e2)) = some (a, b, rest) := h
          clear h
          rename_i h0
          split_ifs at h3 with ho hlt
          all_goals simp only [Option.some.injEq, Prod.mk.injEq] at h3
          all_goals obtain ⟨-, -, rfl⟩ := h3
          all_goals exact ⟨sfx_trans (readln_sfx hr2) htl, by
            have := sfx_length_le (readln_sfx hr2)
            simp at this
            omega⟩
      · simp only [Option.some.injEq, Prod.mk.injEq] at h
        obtain ⟨-, -, rfl⟩ := h
        exact ⟨hfs, hfl⟩

theorem next_ok_sfx_lt {s : List Char} {a b : Nat} {rest : List Char}
    (h : lrg_next_linerange s = .ok a b rest) :
    (∃ t, t ++ rest = s) ∧ rest.length < s.length := by
  unfold lrg_next_linerange at h
  split_ifs at h with hs
  cases hc : clausePart s with
  | none => rw [hc] at h; simp at h
  | some v =>
    obtain ⟨a2, b2, rest2⟩ := v
    rw [hc] at h
    have h4 : (if rest2.head? = some ',' then ParseStep.ok a2 b2 rest2.tail
        else if rest2 ≠ [] then ParseStep.err
        else ParseStep.ok a2 b2 rest2) = ParseStep.ok a b rest := h
    clear h
    obtain ⟨h2s, h2l⟩ := clausePart_sfx_lt hc
    split_ifs at h4 with hcm hne
    · cases h4
      refine ⟨sfx_trans (tail_sfx rest2) h2s, ?_⟩
      have : rest2.tail.length ≤ rest2.length := by cases rest2 <;> simp
      omega
    · cases h4
      exact ⟨h2s, h2l⟩

theorem parseF_nil (fuel : Nat) (h : 1 ≤ fuel) : lrg_parse_linesF fuel [] = .ok [] := by
  cases fuel with
  | zero => omega
  | succ f => simp [lrg_parse_linesF, lrg_next_linerange]

theorem parseF_error_sfx : ∀ (fuel : Nat) (s e : List Char), s.length < fuel →
    lrg_parse_linesF fuel s = .error e →
    (∃ t, t ++ e = s) ∧ lrg_next_linerange e = .err := by
  intro fuel
  induction fuel with
  | zero =>
    intro s e h
    omega
  | succ f ih =>
    intro s e hlen h
    rw [lrg_parse_linesF] at h
    cases hn : lrg_next_linerange s with
    | done => rw [hn] at h; simp at h
    | err =>
      rw [hn] at h
      simp only [Except.error.injEq] at h
      subst h
      exact ⟨⟨[], rfl⟩, hn⟩
    | ok a b rest =>
      rw [hn] at h
      have h4 : (match lrg_parse_linesF f rest with
          | Except.error e => Except.error e
          | Except.ok rs =>
            Except.ok (⟨a, b, clauseText s rest⟩ :: rs)) = Except.error e := h
      clear h
      cases hp : lrg_parse_linesF f rest with
      | error e₂ =>
        rw [hp] at h4
        simp only [Except.error.injEq] at h4
        subst h4
        obtain ⟨hs, hl⟩ := next_ok_sfx_lt hn
        obtain ⟨h1, h2⟩ := ih rest e₂ (by omega) hp
        exact ⟨sfx_trans h1 hs, h2⟩
      | ok rs => rw [hp] at h4; simp at h4

theorem parse_error_sfx {s e : List Char} (h : lrg_parse_lines s = .error e) :
    (∃ t, t ++ e = s) ∧ lrg_next_linerange e = .err :=
  parseF_error_sfx (s.length + 1) s e (by omega) h

theorem next_badsep {s : List Char} {a b : Nat} {rest : List Char}
    (h : clausePart s = some (a, b, rest)) (hne : rest ≠ [])
    (hc : rest.head? ≠ some ',') : lrg_next_linerange s = .err := by
  have hs : s ≠ [] := by
    intro he
    subst he
    rw [show clausePart ([] : List Char) = none from rfl] at h
    exact Option.noConfusion h
  unfold lrg_next_linerange
  rw [if_neg hs, h]
  simp only [if_neg hc]
  rw [if_pos hne]

theorem isSpace_not_digit {c : Char} (h : isSpaceC c = true) : isDigitC c = false := by
  cases hd : isDigitC c
  · rfl
  · rw [isDigit_not_space hd] at h
    simp at h

theorem isSpace_ne {c : Char} (h : isSpaceC c = true) (d : Char)
    (hd : isSpaceC d = false) : c ≠ d := by
  intro he
  subst he
  rw [h] at hd
  simp at hd

theorem allDigits_head {c : Char} {cs : List Char} (h : allDigits (c :: cs) = true) :
    isDigitC c = true ∧ allDigits cs = true := by
  simpa [allDigits] using h

theorem dropWhile_space_append (ws s : List Char) (h : ∀ c ∈ ws, isSpaceC c = true) :
    (ws ++ s).dropWhile isSpaceC = s.dropWhile isSpaceC := by
  induction ws with
  | nil => rfl
  | cons c t ih =>
    have hc : isSpaceC c = true := h c (by simp)
    rw [List.cons_append, List.dropWhile_cons, if_pos hc]
    exact ih (fun d hd => h d (by simp [hd]))

theorem takeWhile_digits_append (ds rest : List Char) (hd : allDigits ds = true)
    (hr : noDigitHead rest = true) :
    (ds ++ rest).takeWhile isDigitC = ds ∧ (ds ++ rest).dropWhile isDigitC = rest := by
  induction ds with
  | nil =>
    cases rest with
    | nil => exact ⟨rfl, rfl⟩
    | cons c cs =>
      have hc : isDigitC c = false := by
        simpa [noDigitHead] using hr
      simp [List.takeWhile_cons, List.dropWhile_cons, hc]
  | cons c t ih =>
    obtain ⟨hc, ht⟩ := allDigits_head hd
    obtain ⟨ih1, ih2⟩ := ih ht
    constructor
    · rw [List.cons_append, List.takeWhile_cons, if_pos hc, ih1]
    · rw [List.cons_append, List.dropWhile_cons, if_pos hc, ih2]

theorem dropWhile_space_digits {ds : List Char} {rest : List Char}
    (hd : allDigits ds = true) (hne : ds ≠ []) :
    (ds ++ rest).dropWhile isSpaceC = ds ++ rest := by
  obtain ⟨c, cs, rfl⟩ := List.exists_cons_of_ne_nil hne
  obtain ⟨hc, -⟩ := allDigits_head hd
  rw [List.cons_append, List.dropWhile_cons, isDigit_not_space hc]
  simp

theorem strNum_digits (ds rest : List Char) (hd : allDigits ds = true) (hne : ds ≠ []) :
    strNum (ds ++ rest) = ds ++ rest := by
  unfold strNum
  rw [dropWhile_space_digits hd hne]
  obtain ⟨c, cs, rfl⟩ := List.exists_cons_of_ne_nil hne
  have h2 : c ≠ '+' := isDigit_ne (allDigits_head hd).1 '+' (by decide)
  simp [h2]

theorem strtoull_digits (ds rest : List Char) (h1 : allDigits ds = true) (h2 : ds ≠ [])
    (h3 : noDigitHead rest = true) :
    lrg_strtoull (ds ++ rest) =
      if LINENUM_MAX < digitsVal ds then (LINENUM_MAX, rest, true)
      else (digitsVal ds, rest, false) := by
  unfold lrg_strtoull
  rw [strNum_digits ds rest h1 h2]
  obtain ⟨ht, hdw⟩ := takeWhile_digits_append ds rest h1 h3
  rw [ht, hdw, if_neg h2]

theorem ne_append_self {ds rest : List Char} (h : ds ≠ []) : rest ≠ ds ++ rest := by
  intro he
  have h2 := congrArg List.length he
  rw [List.length_append] at h2
  have hlen : 0 < ds.length := List.length_pos.mpr h
  omega

theorem readln_digits_pos (ds rest : List Char) (fb : Nat) (az : Bool)
    (h1 : allDigits ds = true) (h2 : ds ≠ []) (h3 : noDigitHead rest = true)
    (h4 : digitsVal ds ≤ LINENUM_MAX) (h5 : digitsVal ds ≠ 0) :
    lrg_read_linenum (ds ++ rest) fb az = some (true, digitsVal ds, rest) := by
  unfold lrg_read_linenum
  rw [dropWhile_space_digits h1 h2]
  unfold readlnAux
  have h6 : (ds ++ rest).head? ≠ some '-' := by
    obtain ⟨c, cs, rfl⟩ := List.exists_cons_of_ne_nil h2
    have := isDigit_ne (allDigits_head h1).1 '-' (by decide)
    simp [this]
  rw [if_neg h6]
  have h7 : lrg_strtoull (ds ++ rest) = (digitsVal ds, rest, false) := by
    rw [strtoull_digits ds rest h1 h2 h3, if_neg (by omega)]
  rw [h7]
  simp only [Bool.false_eq_true, if_false]
  rw [if_neg]
  · simp [h5]
  · simp only [Bool.and_eq_true, decide_eq_true_eq]
    rintro ⟨hz, -⟩
    exact h5 hz

theorem readln_digits_zero_az (ds rest : List Char) (fb : Nat)
    (h1 : allDigits ds = true) (h2 : ds ≠ []) (h3 : noDigitHead rest = true)
    (h0 : digitsVal ds = 0) :
    lrg_read_linenum (ds ++ rest) fb true = some (true, 0, rest) := by
  unfold lrg_read_linenum
  rw [dropWhile_space_digits h1 h2]
  unfold readlnAux
  have h6 : (ds ++ rest).head? ≠ some '-' := by
    obtain ⟨c, cs, rfl⟩ := List.exists_cons_of_ne_nil h2
    have := isDigit_ne (allDigits_head h1).1 '-' (by decide)
    simp [this]
  rw [if_neg h6]
  have h7 : lrg_strtoull (ds ++ rest) = (digitsVal ds, rest, false) := by
    rw [strtoull_digits ds rest h1 h2 h3, if_neg (by simp [h0, LINENUM_MAX])]
  rw [h7]
  simp only [Bool.false_eq_true, if_false]
  rw [if_neg]
  · simp [h0]
  · simp only [Bool.and_eq_true, decide_eq_true_eq]
    rintro ⟨-, hcontr⟩
    simp at hcontr
    exact h2 hcontr

theorem readln_nil (fb : Nat) (az : Bool) :
    lrg_read_linenum [] fb az = some (az || decide (fb ≠ 0), fb, []) := by
  unfold lrg_read_linenum readlnAux lrg_strtoull strNum
  simp

theorem parseF_step (fuel : Nat) (s : List Char) (h : 1 ≤ fuel) :
    lrg_parse_linesF fuel s =
      match lrg_next_linerange s with
      | .done => .ok []
      | .err => .error s
      | .ok a b rest =>
        match lrg_parse_linesF (fuel - 1) rest with
        | .error e => .error e
        | .ok rs => .ok (⟨a, b, clauseText s rest⟩ :: rs) := by
  cases fuel with
  | zero => omega
  | succ f => rfl

theorem parse_single {s : List Char} {a b : Nat} (hcp : clausePart s = some (a, b, []))
    (hne : s ≠ []) (hlast : s.getLast? ≠ some ',') :
    lrg_parse_lines s = .ok [⟨a, b, s⟩] := by
  have hnext : lrg_next_linerange s = .ok a b [] := by
    unfold lrg_next_linerange
    rw [if_neg hne, hcp]
    simp
  have hlen : 1 ≤ s.length := List.length_pos.mpr hne
  unfold lrg_parse_lines
  rw [parseF_step _ _ (by omega), hnext]
  show (match lrg_parse_linesF (s.length + 1 - 1) [] with
      | Except.error e => Except.error e
      | Except.ok rs => Except.ok (LineRange.mk a b (clauseText s []) :: rs)) =
    Except.ok [LineRange.mk a b s]
  rw [show s.length + 1 - 1 = s.length from rfl]
  rw [parseF_nil s.length (by omega)]
  show Except.ok [LineRange.mk a b (clauseText s [])] = Except.ok [LineRange.mk a b s]
  have hct : clauseText s [] = s := by
    unfold clauseText
    simp only [List.length_nil, Nat.sub_zero, List.take_length]
    rw [if_neg hlast]
  rw [hct]

theorem readln_digits_zero_noaz (ds rest : List Char) (fb : Nat)
    (h1 : allDigits ds = true) (h2 : ds ≠ []) (h3 : noDigitHead rest = true)
    (h0 : digitsVal ds = 0) :
    lrg_read_linenum (ds ++ rest) fb false = some (decide (fb ≠ 0), fb, rest) := by
  unfold lrg_read_linenum
  rw [dropWhile_space_digits h1 h2]
  unfold readlnAux
  have h6 : (ds ++ rest).head? ≠ some '-' := by
    obtain ⟨c, cs, rfl⟩ := List.exists_cons_of_ne_nil h2
    have := isDigit_ne (allDigits_head h1).1 '-' (by decide)
    simp [this]
  rw [if_neg h6]
  have h7 : lrg_strtoull (ds ++ rest) = (digitsVal ds, rest, false) := by
    rw [strtoull_digits ds rest h1 h2 h3, if_neg (by simp [h0, LINENUM_MAX])]
  rw [h7]
  simp only [Bool.false_eq_true, if_false]
  rw [if_pos]
  · simp
  · simp [h0]

theorem readln_digits_overflow (ds rest : List Char) (fb : Nat) (az : Bool)
    (h1 : allDigits ds = true) (h2 : ds ≠ []) (h3 : noDigitHead rest = true)
    (h4 : LINENUM_MAX < digitsVal ds) :
    lrg_read_linenum (ds ++ rest) fb az = none := by
  unfold lrg_read_linenum
  rw [dropWhile_space_digits h1 h2]
  unfold readlnAux
  have h6 : (ds ++ rest).head? ≠ some '-' := by
    obtain ⟨c, cs, rfl⟩ := List.exists_cons_of_ne_nil h2
    have := isDigit_ne (allDigits_head h1).1 '-' (by decide)
    simp [this]
  rw [if_neg h6]
  have h7 : lrg_strtoull (ds ++ rest) = (LINENUM_MAX, rest, true) := by
    rw [strtoull_digits ds rest h1 h2 h3, if_pos h4]
  rw [h7]
  simp

theorem clause_digits {ds : List Char} (h1 : allDigits ds = true) (h2 : ds ≠ [])
    (h3 : 1 ≤ digitsVal ds) (h4 : digitsVal ds ≤ LINENUM_MAX) :
    clausePart ds = some (digitsVal ds, digitsVal ds, []) := by
  have hr : lrg_read_linenum ds 0 false = some (true, digitsVal ds, []) := by
    have := readln_digits_pos ds [] 0 false h1 h2 (by simp [noDigitHead]) h4 (by omega)
    simpa using this
  unfold clausePart
  rw [hr]
  simp

theorem clause_dash {dsN dsM : List Char}
    (hN1 : allDigits dsN = true) (hN2 : dsN ≠ [])
    (hN3 : 1 ≤ digitsVal dsN) (hN4 : digitsVal dsN ≤ LINENUM_MAX)
    (hM1 : allDigits dsM = true) (hM2 : dsM ≠ [])
    (hM4 : digitsVal dsM ≤ LINENUM_MAX) :
    clausePart (dsN ++ '-' :: dsM) =
      some (digitsVal dsN,
        if digitsVal dsM = 0 then LINENUM_MAX else digitsVal dsM, []) := by
  have hr : lrg_read_linenum (dsN ++ '-' :: dsM) 0 false =
      some (true, digitsVal dsN, '-' :: dsM) :=
    readln_digits_pos dsN ('-' :: dsM) 0 false hN1 hN2 (by simp [noDigitHead]; decide)
      hN4 (by omega)
  unfold clausePart
  rw [hr]
  simp only [Bool.not_true, Bool.false_eq_true, if_false, List.head?_cons,
    Option.some.injEq, if_pos rfl, List.tail_cons]
  have hdsM : dsM ++ ([] : List Char) = dsM := by simp
  by_cases hz : digitsVal dsM = 0
  · have hr2 : lrg_read_linenum dsM LINENUM_MAX false =
        some (decide (LINENUM_MAX ≠ 0), LINENUM_MAX, []) := by
      have := readln_digits_zero_noaz dsM [] LINENUM_MAX hM1 hM2 (by simp [noDigitHead]) hz
      rwa [hdsM] at this
    rw [hr2]
    simp [hz]
  · have hr2 : lrg_read_linenum dsM LINENUM_MAX false =
        some (true, digitsVal dsM, []) := by
      have := readln_digits_pos dsM [] LINENUM_MAX false hM1 hM2
        (by simp [noDigitHead]) hM4 hz
      rwa [hdsM] at this
    rw [hr2]
    simp [hz]

theorem clause_dash_empty {ds : List Char}
    (h1 : allDigits ds = true) (h2 : ds ≠ [])
    (h3 : 1 ≤ digitsVal ds) (h4 : digitsVal ds ≤ LINENUM_MAX) :
    clausePart (ds ++ ['-']) = some (digitsVal ds, LINENUM_MAX, []) := by
  have hr : lrg_read_linenum (ds ++ ['-']) 0 false =
      some (true, digitsVal ds, ['-']) :=
    readln_digits_pos ds ['-'] 0 false h1 h2 (by decide) h4 (by omega)
  unfold clausePart
  rw [hr]
  simp only [Bool.not_true, Bool.false_eq_true, if_false, List.head?_cons,
    Option.some.injEq, if_pos rfl, List.tail_cons]
  rw [readln_nil]
  simp [LINENUM_MAX]

theorem clause_tilde {dsN dsK : List Char} {K : Nat}
    (hN1 : allDigits dsN = true) (hN2 : dsN ≠ [])
    (hN3 : 1 ≤ digitsVal dsN) (hN4 : digitsVal dsN ≤ LINENUM_MAX)
    (hK : (dsK = [] ∧ K = 3) ∨
      (allDigits dsK = true ∧ dsK ≠ [] ∧ digitsVal dsK = K))
    (hsum : digitsVal dsN + K ≤ LINENUM_MAX) :
    clausePart (dsN ++ '~' :: dsK) =
      some (if K < digitsVal dsN then digitsVal dsN - K else 1,
        digitsVal dsN + K, []) := by
  have hr : lrg_read_linenum (dsN ++ '~' :: dsK) 0 false =
      some (true, digitsVal dsN, '~' :: dsK) :=
    readln_digits_pos dsN ('~' :: dsK) 0 false hN1 hN2 (by simp [noDigitHead]; decide)
      hN4 (by omega)
  unfold clausePart
  rw [hr]
  simp only [Bool.not_true, Bool.false_eq_true, if_false, List.head?_cons,
    Option.some.injEq, List.tail_cons]
  rw [if_pos trivial]
  have hr2 : lrg_read_linenum dsK 3 true = some (true, K, []) := by
    rcases hK with ⟨rfl, rfl⟩ | ⟨hK1, hK2, hK3⟩
    · rw [readln_nil]
      simp
    · have hdsK : dsK ++ ([] : List Char) = dsK := by simp
      by_cases hz : digitsVal dsK = 0
      · have := readln_digits_zero_az dsK [] 3 hK1 hK2 (by simp [noDigitHead]) hz
        rw [hdsK] at this
        rw [this, ← hK3, hz]
      · have := readln_digits_pos dsK [] 3 true hK1 hK2 (by simp [noDigitHead])
          (by omega) hz
        rw [hdsK] at this
        rw [this, ← hK3]
  rw [hr2]
  show (if LINENUM_MAX < digitsVal dsN + K then none
      else some (if K < digitsVal dsN then digitsVal dsN - K else 1,
        digitsVal dsN + K, [])) =
    some (if K < digitsVal dsN then digitsVal dsN - K else 1, digitsVal dsN + K, [])
  rw [if_neg (by omega)]

theorem parse_err (s : List Char) (h : lrg_next_linerange s = .err) :
    lrg_parse_lines s = .error s := by
  unfold lrg_parse_lines
  rw [parseF_step _ _ (by omega), h]

theorem clause_overflow {ds rest : List Char} (h1 : allDigits ds = true)
    (h2 : ds ≠ []) (h3 : noDigitHead rest = true)
    (h4 : LINENUM_MAX < digitsVal ds) : clausePart (ds ++ rest) = none := by
  unfold clausePart
  rw [readln_digits_overflow ds rest 0 false h1 h2 h3 h4]

theorem next_err_of_clause_none {s : List Char} (hne : s ≠ [])
    (h : clausePart s = none) : lrg_next_linerange s = .err := by
  unfold lrg_next_linerange
  rw [if_neg hne, h]

theorem append_cons_ne_nil {ds rest : List Char} {c : Char} : ds ++ c :: rest ≠ [] := by
  simp

theorem clause_tilde_overflow {dsN dsK : List Char}
    (hN1 : allDigits dsN = true) (hN2 : dsN ≠ [])
    (hN3 : 1 ≤ digitsVal dsN) (hN4 : digitsVal dsN ≤ LINENUM_MAX)
    (hK1 : allDigits dsK = true) (hK2 : dsK ≠ [])
    (hK4 : digitsVal dsK ≤ LINENUM_MAX)
    (hsum : LINENUM_MAX < digitsVal dsN + digitsVal dsK) :
    clausePart (dsN ++ '~' :: dsK) = none := by
  have hr : lrg_read_linenum (dsN ++ '~' :: dsK) 0 false =
      some (true, digitsVal dsN, '~' :: dsK) :=
    readln_digits_pos dsN ('~' :: dsK) 0 false hN1 hN2 (by simp [noDigitHead]; decide)
      hN4 (by omega)
  unfold clausePart
  rw [hr]
  simp only [Bool.not_true, Bool.false_eq_true, if_false, List.head?_cons,
    Option.some.injEq, List.tail_cons]
  rw [if_pos trivial]
  have hdsK : dsK ++ ([] : List Char) = dsK := by simp
  have hr2 : lrg_read_linenum dsK 3 true = some (true, digitsVal dsK, []) := by
    by_cases hz : digitsVal dsK = 0
    · have := readln_digits_zero_az dsK [] 3 hK1 hK2 (by simp [noDigitHead]) hz
      rw [hdsK] at this
      rw [this, hz]
    · have := readln_digits_pos dsK [] 3 true hK1 hK2 (by simp [noDigitHead]) hK4 hz
      rw [hdsK] at this
      rw [this]
  rw [hr2]
  show (if LINENUM_MAX < digitsVal dsN + digitsVal dsK then none
      else some (if digitsVal dsK < digitsVal dsN then digitsVal dsN - digitsVal dsK
        else 1, digitsVal dsN + digitsVal dsK, [])) = none
  rw [if_pos hsum]

theorem getLast_digits {ds : List Char} (h1 : allDigits ds = true) (h2 : ds ≠ []) :
    ∃ c, ds.getLast? = some c ∧ isDigitC c = true := by
  refine ⟨ds.getLast h2, List.getLast?_eq_getLast ds h2, ?_⟩
  have hmem := List.getLast_mem h2
  simp only [allDigits, List.all_eq_true] at h1
  exact h1 _ hmem

theorem getLast_digits_ne_comma {ds : List Char} (h1 : allDigits ds = true)
    (h2 : ds ≠ []) : ds.getLast? ≠ some ',' := by
  obtain ⟨c, hc, hd⟩ := getLast_digits h1 h2
  rw [hc]
  intro he
  exact isDigit_ne hd ',' (by decide) (Option.some.inj he)

theorem readln_ws (ws s : List Char) (fb : Nat) (az : Bool)
    (h : ∀ c ∈ ws, isSpaceC c = true) :
    lrg_read_linenum (ws ++ s) fb az = lrg_read_linenum s fb az := by
  unfold lrg_read_linenum
  rw [dropWhile_space_append ws s h]

theorem noDigitHead_of_space {ws : List Char} (h : ∀ c ∈ ws, isSpaceC c = true) :
    noDigitHead ws = true := by
  cases ws with
  | nil => rfl
  | cons c t =>
    have := isSpace_not_digit (h c (by simp))
    simp [noDigitHead, this]

theorem next_trailing_ws {ds ws : List Char}
    (h1 : allDigits ds = true) (h2 : ds ≠ [])
    (h3 : 1 ≤ digitsVal ds) (h4 : digitsVal ds ≤ LINENUM_MAX)
    (hw1 : ws ≠ []) (hw2 : ∀ c ∈ ws, isSpaceC c = true) :
    lrg_next_linerange (ds ++ ws) = .err := by
  obtain ⟨c, t, rfl⟩ := List.exists_cons_of_ne_nil hw1
  have hc : isSpaceC c = true := hw2 c (by simp)
  have hcp : clausePart (ds ++ c :: t) = some (digitsVal ds, digitsVal ds, c :: t) := by
    have hr : lrg_read_linenum (ds ++ c :: t) 0 false =
        some (true, digitsVal ds, c :: t) :=
      readln_digits_pos ds (c :: t) 0 false h1 h2
        (by simp [noDigitHead, isSpace_not_digit hc]) h4 (by omega)
    unfold clausePart
    rw [hr]
    have hnm : (c :: t).head? ≠ some '-' := by
      simp only [List.head?_cons]
      intro he
      exact isSpace_ne hc '-' (by decide) (Option.some.inj he)
    have hnt : (c :: t).head? ≠ some '~' := by
      simp only [List.head?_cons]
      intro he
      exact isSpace_ne hc '~' (by decide) (Option.some.inj he)
    simp only [Bool.not_true, Bool.false_eq_true, if_false, if_neg hnm, if_neg hnt]
  unfold lrg_next_linerange
  rw [if_neg (by simp), hcp]
  have hnc : (c :: t).head? ≠ some ',' := by
    simp only [List.head?_cons]
    intro he
    exact isSpace_ne hc ',' (by decide) (Option.some.inj he)
  show (if (c :: t).head? = some ',' then
      ParseStep.ok (digitsVal ds) (digitsVal ds) (c :: t).tail
    else if (c :: t) ≠ [] then ParseStep.err
    else ParseStep.ok (digitsVal ds) (digitsVal ds) (c :: t)) = ParseStep.err
  rw [if_neg hnc, if_pos (by simp)]

theorem append_ne_nil_left {ds rest : List Char} (h : ds ≠ []) : ds ++ rest ≠ [] := by
  intro he
  exact h (List.append_eq_nil.mp he).1

theorem getLast_ne_comma_append {l₁ : List Char} {c : Char} {l₂ : List Char}
    (hc : c ≠ ',') (h : allDigits l₂ = true) :
    (l₁ ++ c :: l₂).getLast? ≠ some ',' := by
  cases l₂ with
  | nil =>
    rw [List.getLast?_append_of_ne_nil l₁ (by simp)]
    intro he
    exact hc (Option.some.inj he)
  | cons d t =>
    have he : l₁ ++ c :: d :: t = (l₁ ++ [c]) ++ d :: t := by simp
    rw [he, List.getLast?_append_of_ne_nil _ (by simp)]
    exact getLast_digits_ne_comma h (by simp)

theorem parse_dash {dsN dsM : List Char}
    (hN1 : allDigits dsN = true) (hN2 : dsN ≠ [])
    (hN3 : 1 ≤ digitsVal dsN) (hN4 : digitsVal dsN ≤ LINENUM_MAX)
    (hM1 : allDigits dsM = true) (hM2 : dsM ≠ [])
    (hM3 : 1 ≤ digitsVal dsM) (hM4 : digitsVal dsM ≤ LINENUM_MAX) :
    lrg_parse_lines (dsN ++ '-' :: dsM) =
      .ok [⟨digitsVal dsN, digitsVal dsM, dsN ++ '-' :: dsM⟩] := by
  apply parse_single
  · rw [clause_dash hN1 hN2 hN3 hN4 hM1 hM2 hM4, if_neg (by omega)]
  · exact append_cons_ne_nil
  · exact getLast_ne_comma_append (by decide) hM1

theorem parse_dash_empty {ds : List Char}
    (h1 : allDigits ds = true) (h2 : ds ≠ [])
    (h3 : 1 ≤ digitsVal ds) (h4 : digitsVal ds ≤ LINENUM_MAX) :
    lrg_parse_lines (ds ++ ['-']) =
      .ok [⟨digitsVal ds, LINENUM_MAX, ds ++ ['-']⟩] := by
  apply parse_single
  · exact clause_dash_empty h1 h2 h3 h4
  · exact append_ne_nil_left h2
  · have he : ds ++ ['-'] = ds ++ '-' :: [] := rfl
    rw [he]
    exact getLast_ne_comma_append (by decide) rfl

theorem parse_digits {ds : List Char}
    (h1 : allDigits ds = true) (h2 : ds ≠ [])
    (h3 : 1 ≤ digitsVal ds) (h4 : digitsVal ds ≤ LINENUM_MAX) :
    lrg_parse_lines ds = .ok [⟨digitsVal ds, digitsVal ds, ds⟩] := by
  apply parse_single
  · exact clause_digits h1 h2 h3 h4
  · exact h2
  · exact getLast_digits_ne_comma h1 h2

theorem parse_tilde {dsN dsK : List Char} {K : Nat}
    (hN1 : allDigits dsN = true) (hN2 : dsN ≠ [])
    (hN3 : 1 ≤ digitsVal dsN) (hN4 : digitsVal dsN ≤ LINENUM_MAX)
    (hK : (dsK = [] ∧ K = 3) ∨
      (allDigits dsK = true ∧ dsK ≠ [] ∧ digitsVal dsK = K))
    (hsum : digitsVal dsN + K ≤ LINENUM_MAX) :
    lrg_parse_lines (dsN ++ '~' :: dsK) =
      .ok [⟨if K < digitsVal dsN then digitsVal dsN - K else 1,
        digitsVal dsN + K, dsN ++ '~' :: dsK⟩] := by
  apply parse_single
  · exact clause_tilde hN1 hN2 hN3 hN4 hK hsum
  · exact append_cons_ne_nil
  · rcases hK with ⟨rfl, -⟩ | ⟨hK1, -, -⟩
    · exact getLast_ne_comma_append (by decide) rfl
    · exact getLast_ne_comma_append (by decide) hK1

/-! ### Claims about the range parser -/

/-- C7: after a clause is consumed, a next character that is neither a
comma nor the end of the string is a hard parse error, and the error
message carries exactly the remaining unparsed substring starting at the
malformed clause.  First conjunct: the separator check of
lrg_next_linerange fails in that situation, and lrg_parse_lines then
reports the whole remaining input as the error.  Second conjunct: every
parse error of lrg_parse_lines reports a suffix of the input, namely the
remainder at the clause on which lrg_next_linerange fails. -/
theorem claim_C7 :
    (∀ (s : List Char) (a b : Nat) (rest : List Char),
      clausePart s = some (a, b, rest) → rest ≠ [] → rest.head? ≠ some ',' →
      lrg_next_linerange s = .err ∧ lrg_parse_lines s = .error s) ∧
    (∀ s e : List Char, lrg_parse_lines s = .error e →
      (∃ t, t ++ e = s) ∧ lrg_next_linerange e = .err) := by
  constructor
  · intro s a b rest h hne hc
    have hn := next_badsep h hne hc
    exact ⟨hn, parse_err s hn⟩
  · intro s e h
    exact parse_error_sfx h

/-- Witness for C7 at the specification 1,2x: the malformed clause 2x is
reported with the full remaining substring. -/
theorem claim_C7_witness :
    (lrg_next_linerange ['2', 'x'] = .err ∧
      lrg_parse_lines ['2', 'x'] = .error ['2', 'x']) ∧
    ((∃ t, t ++ ['2', 'x'] = ['1', ',', '2', 'x']) ∧
      lrg_next_linerange ['2', 'x'] = .err) :=
  ⟨claim_C7.1 ['2', 'x'] 2 2 ['x'] (by decide) (by decide) (by decide),
   claim_C7.2 ['1', ',', '2', 'x'] ['2', 'x'] (by decide)⟩

/-- C8: a decimal literal above LINENUM_MAX is a hard parse error
(strtoull reports ERANGE and lrg_read_linenum returns -1), and a clause
N~M whose upper bound N+M overflows the 64-bit line number type is a hard
parse error (the line0 + linec wraparound check); in both cases
lrg_parse_lines fails and no range is produced. -/
theorem claim_C8 :
    (∀ ds rest : List Char, allDigits ds = true → ds ≠ [] →
      noDigitHead rest = true → LINENUM_MAX < digitsVal ds →
      lrg_parse_lines (ds ++ rest) = .error (ds ++ rest)) ∧
    (∀ dsN dsK : List Char, allDigits dsN = true → dsN ≠ [] →
      1 ≤ digitsVal dsN → digitsVal dsN ≤ LINENUM_MAX →
      allDigits dsK = true → dsK ≠ [] → digitsVal dsK ≤ LINENUM_MAX →
      LINENUM_MAX < digitsVal dsN + digitsVal dsK →
      lrg_parse_lines (dsN ++ '~' :: dsK) = .error (dsN ++ '~' :: dsK)) := by
  constructor
  · intro ds rest h1 h2 h3 h4
    exact parse_err _ (next_err_of_clause_none (append_ne_nil_left h2)
      (clause_overflow h1 h2 h3 h4))
  · intro dsN dsK hN1 hN2 hN3 hN4 hK1 hK2 hK4 hsum
    exact parse_err _ (next_err_of_clause_none append_cons_ne_nil
      (clause_tilde_overflow hN1 hN2 hN3 hN4 hK1 hK2 hK4 hsum))

/-- Witness for C8: the literal 99999999999999999999 overflows, and
18446744073709551615~1 overflows the sum. -/
theorem claim_C8_witness :
    lrg_parse_lines ("99999999999999999999".toList ++ []) =
      .error ("99999999999999999999".toList ++ []) ∧
    lrg_parse_lines ("18446744073709551615".toList ++ '~' :: "1".toList) =
      .error ("18446744073709551615".toList ++ '~' :: "1".toList) :=
  ⟨claim_C8.1 "99999999999999999999".toList [] (by decide) (by decide)
      (by decide) (by decide),
   claim_C8.2 "18446744073709551615".toList "1".toList (by decide) (by decide)
      (by decide) (by decide) (by decide) (by decide) (by decide) (by decide)⟩

/-- C9 counterexample: trailing whitespace after the digits of a numeric
token is not tolerated.  The specification 1 followed by a space is a
hard parse error, while 1 alone parses; the claim asserts they parse to
the same range. -/
theorem claim_C9_cex :
    lrg_parse_lines ['1'] = .ok [⟨1, 1, ['1']⟩] ∧
    lrg_parse_lines ['1', ' '] = .error ['1', ' '] := by
  constructor
  · decide
  · decide

/-- C9 as amended: leading whitespace before a numeric token is skipped
by lrg_read_linenum, so it never changes the parse; trailing whitespace
after the digits is not tolerated and makes the clause a hard parse
error; and the clause N- with nothing after the dash takes the
open-ended fallback LINENUM_MAX rather than failing. -/
theorem claim_C9 :
    (∀ (ws s : List Char) (fb : Nat) (az : Bool),
      (∀ c ∈ ws, isSpaceC c = true) →
      lrg_read_linenum (ws ++ s) fb az = lrg_read_linenum s fb az) ∧
    (∀ ds ws : List Char, allDigits ds = true → ds ≠ [] →
      1 ≤ digitsVal ds → digitsVal ds ≤ LINENUM_MAX →
      ws ≠ [] → (∀ c ∈ ws, isSpaceC c = true) →
      lrg_parse_lines (ds ++ ws) = .error (ds ++ ws)) ∧
    (∀ ds : List Char, allDigits ds = true → ds ≠ [] →
      1 ≤ digitsVal ds → digitsVal ds ≤ LINENUM_MAX →
      lrg_parse_lines (ds ++ ['-']) =
        .ok [⟨digitsVal ds, LINENUM_MAX, ds ++ ['-']⟩]) := by
  refine ⟨readln_ws, ?_, ?_⟩
  · intro ds ws h1 h2 h3 h4 hw1 hw2
    exact parse_err _ (next_trailing_ws h1 h2 h3 h4 hw1 hw2)
  · intro ds h1 h2 h3 h4
    exact parse_dash_empty h1 h2 h3 h4

/-- Witness for C9 at concrete inputs: a leading space before 7 does not
change lrg_read_linenum, the input 1 followed by a space fails, and 5-
parses to the open-ended range. -/
theorem claim_C9_witness :
    lrg_read_linenum ([' '] ++ ['7']) 0 false = lrg_read_linenum ['7'] 0 false ∧
    lrg_parse_lines (['1'] ++ [' ']) = .error (['1'] ++ [' ']) ∧
    lrg_parse_lines (['5'] ++ ['-']) = .ok [⟨5, LINENUM_MAX, ['5'] ++ ['-']⟩] :=
  ⟨claim_C9.1 [' '] ['7'] 0 false (by decide),
   claim_C9.2.1 ['1'] [' '] (by decide) (by decide) (by decide) (by decide)
     (by decide) (by decide),
   claim_C9.2.2 ['5'] (by decide) (by decide) (by decide) (by decide)⟩

/-! ### Engine lemmas: empty ranges, EOF short-circuit, per-file loop -/

theorem procRange_skip (σ : List Char) (B : Nat) (fl : LrgFlags) (cs bs : Bool)
    (r : LineRange) (st : ScanSt) (h : r.last < r.first) :
    procRange σ B fl cs bs r st = .cont st [] [] false := by
  unfold procRange
  rw [if_pos h]

theorem processfile_skip (σ : List Char) (B : Nat) (fl : LrgFlags) (cs bs : Bool)
    (r : LineRange) (h : r.last < r.first) :
    lrg_processfile σ B fl cs bs [r] = ⟨[], [], 0, false⟩ := by
  unfold lrg_processfile
  simp only [runRanges, procRange_skip _ _ _ _ _ _ _ h]
  rfl

/-- C10: a range whose first line is greater than its last line is
silently skipped by the scan engine: the range loop emits no output
bytes, prints no diagnostic, performs no read or seek (the whole scan
state, including the line counter and the buffer window, is returned
unchanged), and proceeds to the next range. -/
theorem claim_C10 (σ : List Char) (B : Nat) (fl : LrgFlags) (canSeek bs : Bool)
    (r : LineRange) (st : ScanSt) (h : r.last < r.first) :
    procRange σ B fl canSeek bs r st = .cont st [] [] false :=
  procRange_skip σ B fl canSeek bs r st h

/-- Witness for C10 at a concrete state and the empty range 5-2. -/
theorem claim_C10_witness :
    procRange ['a', '\n'] 4 ⟨true, true, true⟩ true true ⟨5, 2, ['5', '-', '2']⟩
      ⟨1, ['a'], 0, 1, 1, LINENUM_MAX, true⟩ =
      .cont ⟨1, ['a'], 0, 1, 1, LINENUM_MAX, true⟩ [] [] false :=
  claim_C10 ['a', '\n'] 4 ⟨true, true, true⟩ true true ⟨5, 2, ['5', '-', '2']⟩
    ⟨1, ['a'], 0, 1, 1, LINENUM_MAX, true⟩ (by decide)

/-- C6 counterexample: with warn mode and error-on-eof both enabled, a
stream of 2 lines with ranges 5 and 7 stops at the first premature EOF
with return code 0; the subsequent range 7 (whose first line exceeds the
recorded EOF line 3) is never reported as unsatisfiable even though warn
mode is on, contradicting the claim that every such subsequent range is
reported. -/
theorem claim_C6_cex :
    lrg_processfile ['a', '\n', 'b', '\n'] 4 ⟨false, true, true⟩ true true
      [⟨5, 5, ['5']⟩, ⟨7, 7, ['7']⟩] = ⟨[], [Diag.eofBefore 5 3], 0, true⟩ ∧
    Diag.eofBefore 7 3 ∉
      (lrg_processfile ['a', '\n', 'b', '\n'] 4 ⟨false, true, true⟩ true true
        [⟨5, 5, ['5']⟩, ⟨7, 7, ['7']⟩]).diags := by
  constructor
  · decide
  · decide

/-- C6 as amended: when a range whose first line lies beyond the recorded
end-of-stream line is met, the engine performs no further read or seek on
the stream (the scan state is returned unchanged), emits no output,
prints the unsatisfiable-range warning exactly when warn mode is on, and
the per-stream result is not a failure; it moves on to the next range
when error-on-eof mode is off, and otherwise stops processing the
remaining ranges of this stream while still returning per-stream success
(return code 0). -/
theorem claim_C6 (σ : List Char) (B : Nat) (fl : LrgFlags) (canSeek bs : Bool)
    (r : LineRange) (st : ScanSt) (h1 : r.first ≤ r.last) (h2 : st.eofAt < r.first) :
    procRange σ B fl canSeek bs r st =
      (if fl.error_on_eof then
        RRes.halt 0 []
          (if fl.warn_noline then [Diag.eofBefore r.first st.eofAt] else []) false
      else
        RRes.cont st []
          (if fl.warn_noline then [Diag.eofBefore r.first st.eofAt] else []) false) := by
  unfold procRange
  rw [if_neg (by omega), if_pos h2]

/-- Witness for C6 at a concrete state with a recorded EOF at line 3 and
the range 5-5, with warn and error-on-eof enabled. -/
theorem claim_C6_witness :
    procRange ['a', '\n'] 4 ⟨false, true, true⟩ true true ⟨5, 5, ['5']⟩
      ⟨2, ['a', '\n'], 2, 2, 3, 3, false⟩ =
      .halt 0 [] [Diag.eofBefore 5 3] false :=
  claim_C6 ['a', '\n'] 4 ⟨false, true, true⟩ true true ⟨5, 5, ['5']⟩
    ⟨2, ['a', '\n'], 2, 2, 3, 3, false⟩ (by decide) (by decide)

/-- C4 counterexample: the specification 2-1 parses to the range (2, 1)
with no endpoint swap, and on the stream a b the engine emits nothing for
it, while 1-2 emits both lines: the outputs differ, refuting the claimed
swap invariant. -/
theorem claim_C4_cex :
    lrg_parse_lines ['2', '-', '1'] = .ok [⟨2, 1, ['2', '-', '1']⟩] ∧
    lrg_parse_lines ['1', '-', '2'] = .ok [⟨1, 2, ['1', '-', '2']⟩] ∧
    (lrg_processfile ['a', '\n', 'b', '\n'] 4 ⟨false, false, false⟩ true true
      [⟨2, 1, ['2', '-', '1']⟩]).out ≠
    (lrg_processfile ['a', '\n', 'b', '\n'] 4 ⟨false, false, false⟩ true true
      [⟨1, 2, ['1', '-', '2']⟩]).out := by
  refine ⟨by decide, by decide, by decide⟩

/-- C4 as amended: a clause N-M with N greater than M parses to the range
(N, M) exactly as written, with no endpoint swap, and the scan engine
silently skips that empty range: the run emits no output, prints no
diagnostic and succeeds, so N-M with N greater than M behaves as an empty
selection, not as M-N. -/
theorem claim_C4 (dsN dsM : List Char) (N M : Nat) (σ : List Char) (B : Nat)
    (fl : LrgFlags) (canSeek bs : Bool)
    (hN1 : allDigits dsN = true) (hN2 : dsN ≠ []) (hNv : digitsVal dsN = N)
    (hM1 : allDigits dsM = true) (hM2 : dsM ≠ []) (hMv : digitsVal dsM = M)
    (hM3 : 1 ≤ M) (hlt : M < N) (hN4 : N ≤ LINENUM_MAX) :
    lrg_parse_lines (dsN ++ '-' :: dsM) = .ok [⟨N, M, dsN ++ '-' :: dsM⟩] ∧
    lrg_processfile σ B fl canSeek bs [⟨N, M, dsN ++ '-' :: dsM⟩] =
      ⟨[], [], 0, false⟩ := by
  subst hNv hMv
  exact ⟨parse_dash hN1 hN2 (by omega) hN4 hM1 hM2 hM3 (by omega),
    processfile_skip _ _ _ _ _ _ hlt⟩

/-- Witness for C4 at 3-1 on the stream a b. -/
theorem claim_C4_witness :
    lrg_parse_lines (['3'] ++ '-' :: ['1']) = .ok [⟨3, 1, ['3'] ++ '-' :: ['1']⟩] ∧
    lrg_processfile ['a', '\n', 'b', '\n'] 4 ⟨true, true, true⟩ true true
      [⟨3, 1, ['3'] ++ '-' :: ['1']⟩] = ⟨[], [], 0, false⟩ :=
  claim_C4 ['3'] ['1'] 3 1 ['a', '\n', 'b', '\n'] 4 ⟨true, true, true⟩ true true
    (by decide) (by decide) (by decide) (by decide) (by decide) (by decide)
    (by decide) (by decide) (by decide)

/-- C5 counterexample: two input streams, the first non-seekable with the
specification 5,2 (whose second range needs a rewind and therefore fails
with the cannot-rewind error), the second stream seekable.  The per-file
loop of main returns EXITCODE_ERR immediately after the first stream:
only one stream is attempted, the second is not, refuting the claim that
every subsequent stream is still attempted. -/
theorem claim_C5_cex :
    lrg_run 4 ⟨false, false, false⟩ true [⟨5, 5, ['5']⟩, ⟨2, 2, ['2']⟩]
      [(['a', '\n', 'b', '\n', 'c', '\n', 'd', '\n', 'e', '\n'], false),
       (['z', '\n'], true)] =
      ([([OutItem.chunk ['e', '\n']], [Diag.noRewind ['2']])], 1) ∧
    (lrg_run 4 ⟨false, false, false⟩ true [⟨5, 5, ['5']⟩, ⟨2, 2, ['2']⟩]
      [(['a', '\n', 'b', '\n', 'c', '\n', 'd', '\n', 'e', '\n'], false),
       (['z', '\n'], true)]).1.length = 1 := by
  constructor
  · decide
  · decide

/-- C5 as amended: a stream-local fatal error (a nonzero return of
lrg_processfile, e.g. the cannot-rewind error) aborts not only that
stream but the whole invocation: main returns EXITCODE_ERR immediately
and the subsequent input streams are not attempted (the result does not
depend on them). -/
theorem claim_C5 (B : Nat) (fl : LrgFlags) (bs : Bool) (table : List LineRange)
    (f : List Char × Bool) (fs : List (List Char × Bool))
    (h : (lrg_processfile f.1 B fl f.2 bs table).rc ≠ 0) :
    lrg_run B fl bs table (f :: fs) =
      ([((lrg_processfile f.1 B fl f.2 bs table).out,
         (lrg_processfile f.1 B fl f.2 bs table).diags)], 1) := by
  unfold lrg_run
  rw [lrg_runF]
  rw [if_pos h]

/-- Witness for C5: the failing stream of the counterexample scenario
followed by a second stream that is consequently not attempted. -/
theorem claim_C5_witness :
    lrg_run 4 ⟨false, false, false⟩ true [⟨5, 5, ['5']⟩, ⟨2, 2, ['2']⟩]
      [(['a', '\n', 'b', '\n', 'c', '\n', 'd', '\n', 'e', '\n'], false),
       (['x', '\n'], true)] =
      ([((lrg_processfile ['a', '\n', 'b', '\n', 'c', '\n', 'd', '\n', 'e', '\n']
            4 ⟨false, false, false⟩ false true
            [⟨5, 5, ['5']⟩, ⟨2, 2, ['2']⟩]).out,
         (lrg_processfile ['a', '\n', 'b', '\n', 'c', '\n', 'd', '\n', 'e', '\n']
            4 ⟨false, false, false⟩ false true
            [⟨5, 5, ['5']⟩, ⟨2, 2, ['2']⟩]).diags)], 1) :=
  claim_C5 4 ⟨false, false, false⟩ true [⟨5, 5, ['5']⟩, ⟨2, 2, ['2']⟩]
    (['a', '\n', 'b', '\n', 'c', '\n', 'd', '\n', 'e', '\n'], false)
    [(['x', '\n'], true)] (by decide)

set_option maxRecDepth 40000 in
/-- C2: the backward-scan repositioning path is not byte-for-byte
identical to the full-rewind path.  Failing input (with LRG_BUFSIZE = 4):
a seekable stream of 132 two-byte lines (129 lines a, then b, c, d as
lines 130, 131, 132) and the specification 1-,130.  The open-ended first
range reads to EOF with read_n left at 0 (the read_n restore in the
read_error block is skipped because range.last is the open-ended
sentinel); the backward scan for the second range then seeks back only
LRG_BUFSIZE bytes instead of read_n + LRG_BUFSIZE, re-counts the
newlines of the tail chunk it already accounted for, and ends up
emitting the bytes of line 132 (d) where the full-rewind build emits
line 130 (b).  The first conjunct ties the range table to the
specification string; the second exhibits the differing stdout bytes
between the LRG_BACKWARD_SCAN = 1 and LRG_BACKWARD_SCAN = 0 builds. -/
theorem claim_C2 :
    lrg_parse_lines ("1-,130".toList) =
      .ok [⟨1, LINENUM_MAX, "1-".toList⟩, ⟨130, 130, "130".toList⟩] ∧
    flatOut (lrg_processfile
        ((List.replicate 129 ['a', '\n']).flatten ++ "b\nc\nd\n".toList)
        4 ⟨false, false, false⟩ true true
        [⟨1, LINENUM_MAX, "1-".toList⟩, ⟨130, 130, "130".toList⟩]).out ≠
    flatOut (lrg_processfile
        ((List.replicate 129 ['a', '\n']).flatten ++ "b\nc\nd\n".toList)
        4 ⟨false, false, false⟩ true false
        [⟨1, LINENUM_MAX, "1-".toList⟩, ⟨130, 130, "130".toList⟩]).out := by
  constructor
  · decide
  · decide

/-! ### Reference scanner lemmas -/

theorem absScanF_irrel (shw : Bool) (first last : Nat) :
    ∀ (f g : Nat) (r : List Char), r.length < f → r.length < g →
      ∀ (lin : Nat) (s : Bool),
      absScanF shw first last f r lin s = absScanF shw first last g r lin s := by
  intro f
  induction f with
  | zero =>
    intro g r h1 h2
    omega
  | succ f ih =>
    intro g r h1 h2 lin s
    cases g with
    | zero => omega
    | succ g =>
      cases r with
      | nil => rfl
      | cons c cs =>
        have hseg : 1 ≤ (takeLine (c :: cs)).1.length := takeLine_length_pos (by simp)
        have hrl : ((c :: cs).drop (takeLine (c :: cs)).1.length).length <
            cs.length + 1 := by
          rw [List.length_drop]
          simp only [List.length_cons]
          omega
        simp only [List.length_cons] at h1 h2
        have hrest : ((c :: cs).drop (takeLine (c :: cs)).1.length).length < f := by
          omega
        have hrestg : ((c :: cs).drop (takeLine (c :: cs)).1.length).length < g := by
          omega
        simp only [absScanF]
        by_cases hl : lin < first
        · rw [if_pos hl, if_pos hl, ih g _ hrest hrestg]
        · rw [if_neg hl, if_neg hl]
          by_cases he : (takeLine (c :: cs)).2
          · rw [if_pos he, if_pos he]
            by_cases hll : lin = last
            · rw [if_pos hll, if_pos hll]
            · rw [if_neg hll, if_neg hll, ih g _ hrest hrestg]
          · rw [if_neg he, if_neg he, ih g _ hrest hrestg]

theorem absScan_nil (shw : Bool) (first last lin : Nat) (s : Bool) :
    absScan shw first last [] lin s = ⟨[], lin, s, false⟩ := rfl

theorem absScan_skipstep {r : List Char} (hr : r ≠ []) {shw : Bool}
    {first last lin : Nat} {s : Bool} (hl : lin < first) :
    absScan shw first last r lin s =
      absScan shw first last (dropLine r)
        (lin + (if (takeLine r).2 then 1 else 0)) s := by
  obtain ⟨c, cs, rfl⟩ := List.exists_cons_of_ne_nil hr
  show absScanF shw first last ((c :: cs).length + 1) (c :: cs) lin s = _
  simp only [absScanF]
  rw [if_pos hl]
  unfold absScan dropLine
  apply absScanF_irrel
  · have := takeLine_length_pos (List.cons_ne_nil c cs)
    rw [List.length_drop]
    simp only [List.length_cons] at this ⊢
    omega
  · omega

theorem absScan_break {r : List Char} (hr : r ≠ []) {shw : Bool}
    {first last lin : Nat} {s : Bool} (hl : ¬ lin < first)
    (he : (takeLine r).2 = true) (hlast : lin = last) :
    absScan shw first last r lin s =
      ⟨(if s then [OutItem.lnum lin] else []) ++ [OutItem.chunk (takeLine r).1],
        lin + 1, shw, true⟩ := by
  obtain ⟨c, cs, rfl⟩ := List.exists_cons_of_ne_nil hr
  show absScanF shw first last ((c :: cs).length + 1) (c :: cs) lin s = _
  simp only [absScanF]
  rw [if_neg hl, if_pos he, if_pos hlast]

theorem absScan_emitstep {r : List Char} (hr : r ≠ []) {shw : Bool}
    {first last lin : Nat} {s : Bool} (hl : ¬ lin < first)
    (he : (takeLine r).2 = true) (hlast : lin ≠ last) :
    absScan shw first last r lin s =
      ⟨(if s then [OutItem.lnum lin] else []) ++ OutItem.chunk (takeLine r).1 ::
          (absScan shw first last (dropLine r) (lin + 1) shw).out,
        (absScan shw first last (dropLine r) (lin + 1) shw).lin,
        (absScan shw first last (dropLine r) (lin + 1) shw).sh,
        (absScan shw first last (dropLine r) (lin + 1) shw).brk⟩ := by
  obtain ⟨c, cs, rfl⟩ := List.exists_cons_of_ne_nil hr
  show absScanF shw first last ((c :: cs).length + 1) (c :: cs) lin s = _
  simp only [absScanF]
  rw [if_neg hl, if_pos he, if_neg hlast]
  have hirr : absScanF shw first last ((c :: cs).length)
      ((c :: cs).drop (takeLine (c :: cs)).1.length) (lin + 1) shw =
      absScan shw first last (dropLine (c :: cs)) (lin + 1) shw := by
    unfold absScan dropLine
    apply absScanF_irrel
    · have := takeLine_length_pos (List.cons_ne_nil c cs)
      rw [List.length_drop]
      simp only [List.length_cons] at this ⊢
      omega
    · omega
  rw [hirr]

theorem absScan_lastpart {r : List Char} (hr : r ≠ []) {shw : Bool}
    {first last lin : Nat} {s : Bool} (hl : ¬ lin < first)
    (he : (takeLine r).2 = false) :
    absScan shw first last r lin s =
      ⟨(if s then [OutItem.lnum lin] else []) ++ [OutItem.chunk r], lin, false, false⟩ := by
  obtain ⟨c, cs, rfl⟩ := List.exists_cons_of_ne_nil hr
  show absScanF shw first last ((c :: cs).length + 1) (c :: cs) lin s = _
  simp only [absScanF]
  rw [if_neg hl, he]
  simp only [Bool.false_eq_true, if_false]
  have hdrop : (c :: cs).drop (takeLine (c :: cs)).1.length = [] := by
    rw [takeLine_noeol_eq he]
    simp
  rw [hdrop]
  have hnil : ∀ fuel, absScanF shw first last fuel [] (lin : Nat) false = ⟨[], lin, false, false⟩ := by
    intro fuel
    cases fuel <;> rfl
  rw [hnil]
  rw [takeLine_noeol_eq he]

theorem drop_append_seg {w x : List Char} {n : Nat} (h : n ≤ w.length) :
    (w ++ x).drop n = w.drop n ++ x :=
  List.drop_append_of_le_length h

theorem dropLine_append_noeol {w x : List Char} (hw : w ≠ [])
    (he : (takeLine w).2 = false) :
    dropLine (w ++ x) = dropLine x := by
  unfold dropLine
  rw [takeLine_noeol_append w x hw he]
  cases x with
  | nil =>
    simp [takeLine, takeLine_noeol_eq he]
  | cons d ds =>
    have h1 : (w ++ (takeLine (d :: ds)).1).length =
        w.length + (takeLine (d :: ds)).1.length := by
      simp
    rw [h1, ← List.drop_drop]
    rw [List.drop_append_of_le_length (by simp)]
    simp

theorem absScan_mid_skip {w : List Char} (x : List Char) (hw : w ≠ [])
    (he : (takeLine w).2 = false) {shw : Bool} {first last lin : Nat} {s : Bool}
    (hl : lin < first) :
    absScan shw first last (w ++ x) lin s = absScan shw first last x lin s := by
  cases x with
  | nil =>
    rw [List.append_nil]
    rw [absScan_skipstep hw hl, he]
    have h1 : dropLine w = [] := by
      unfold dropLine
      rw [takeLine_noeol_eq he]
      simp
    rw [h1]
    simp only [Bool.false_eq_true, if_false, Nat.add_zero]
  | cons d ds =>
    have hwx : w ++ d :: ds ≠ [] := append_ne_nil_left hw
    rw [absScan_skipstep hwx hl, absScan_skipstep (by simp : d :: ds ≠ ([] : List Char)) hl]
    rw [takeLine_noeol_append w (d :: ds) hw he]
    rw [dropLine_append_noeol hw he]

theorem absScan_mid_emit {w : List Char} (x : List Char) (hw : w ≠ [])
    (he : (takeLine w).2 = false) {shw : Bool} {first last lin : Nat} {s : Bool}
    (hl : ¬ lin < first) :
    flatOut (absScan shw first last (w ++ x) lin s).out =
      flatOut (if s then [OutItem.lnum lin] else []) ++ w ++
        flatOut (absScan shw first last x lin false).out ∧
    lnums (absScan shw first last (w ++ x) lin s).out =
      lnums (if s then [OutItem.lnum lin] else []) ++
        lnums (absScan shw first last x lin false).out := by
  cases x with
  | nil =>
    rw [List.append_nil]
    rw [absScan_lastpart hw hl he, absScan_nil]
    constructor
    · simp [flatOut_append, flatOut]
    · simp [lnums_append, lnums]
  | cons d ds =>
    have hwx : w ++ d :: ds ≠ [] := append_ne_nil_left hw
    have hxne : d :: ds ≠ ([] : List Char) := by simp
    have htl := takeLine_noeol_append w (d :: ds) hw he
    by_cases hex : (takeLine (d :: ds)).2
    · by_cases hll : lin = last
      · rw [absScan_break hwx hl (by rw [htl]; exact hex) hll]
        rw [absScan_break hxne hl hex hll]
        rw [htl]
        constructor
        · simp [flatOut_append, flatOut]
        · simp [lnums_append, lnums]
      · rw [absScan_emitstep hwx hl (by rw [htl]; exact hex) hll]
        rw [absScan_emitstep hxne hl hex hll]
        rw [htl, dropLine_append_noeol hw he]
        constructor
        · simp [flatOut_append, flatOut]
        · simp [lnums_append, lnums]
    · have hex2 : (takeLine (w ++ d :: ds)).2 = false := by
        rw [htl]
        simpa using hex
      rw [absScan_lastpart hwx hl hex2]
      rw [absScan_lastpart hxne hl (by simpa using hex)]
      constructor
      · simp [flatOut_append, flatOut]
      · simp [lnums_append, lnums]

theorem scanConsume_abs (σ : List Char) (B : Nat) (shw : Bool) (first last : Nat)
    (fuel : Nat)
    (ih : ∀ (st2 : ScanSt) (k2 : Nat), StOk σ st2 k2 →
      (σ.length - st2.pos) + (st2.buf.length - st2.bn) < fuel →
      flatOut (scanLoopF σ B shw first last fuel st2).2 =
        flatOut (absScan shw first last (σ.drop k2) st2.linenum st2.showThis).out ∧
      lnums (scanLoopF σ B shw first last fuel st2).2 =
        lnums (absScan shw first last (σ.drop k2) st2.linenum st2.showThis).out)
    (st : ScanSt) (k : Nat) (hok : StOk σ st k) (hbn : st.bn < st.buf.length)
    (hm : (σ.length - st.pos) + (st.buf.length - st.bn) ≤ fuel) :
    flatOut (scanConsume shw first last (scanLoopF σ B shw first last fuel) st).2 =
      flatOut (absScan shw first last (σ.drop k) st.linenum st.showThis).out ∧
    lnums (scanConsume shw first last (scanLoopF σ B shw first last fuel) st).2 =
      lnums (absScan shw first last (σ.drop k) st.linenum st.showThis).out := by
  obtain ⟨htail, hble⟩ := hok
  simp only [scanConsume]
  have hwne : st.buf.drop st.bn ≠ [] := by
    intro hnil
    have h0 := congrArg List.length hnil
    rw [List.length_drop] at h0
    simp only [List.length_nil] at h0
    omega
  have hseg1 : 1 ≤ (takeLine (st.buf.drop st.bn)).1.length := takeLine_length_pos hwne
  have hsegle : (takeLine (st.buf.drop st.bn)).1.length ≤ (st.buf.drop st.bn).length :=
    takeLine_length_le _
  have hwlen : (st.buf.drop st.bn).length = st.buf.length - st.bn := List.length_drop _ _
  have hwin2 : st.buf.drop (st.bn + (takeLine (st.buf.drop st.bn)).1.length) =
      (st.buf.drop st.bn).drop (takeLine (st.buf.drop st.bn)).1.length := by
    rw [List.drop_drop, Nat.add_comm]
  have htail2 : st.buf.drop (st.bn + (takeLine (st.buf.drop st.bn)).1.length) ++
      σ.drop st.pos = σ.drop (k + (takeLine (st.buf.drop st.bn)).1.length) := by
    rw [hwin2, ← drop_append_seg hsegle, htail, List.drop_drop, Nat.add_comm]
  have hrne : σ.drop k ≠ [] := by
    rw [← htail]
    exact append_ne_nil_left hwne
  have hdropk : (σ.drop k).drop (takeLine (st.buf.drop st.bn)).1.length =
      σ.drop (k + (takeLine (st.buf.drop st.bn)).1.length) := by
    rw [List.drop_drop, Nat.add_comm]
  by_cases he : (takeLine (st.buf.drop st.bn)).2
  · -- the window segment ends in a newline: the reference scanner takes the same step
    have htlr : takeLine (σ.drop k) = ((takeLine (st.buf.drop st.bn)).1, true) := by
      rw [← htail]
      exact takeLine_eol_append _ _ he
    have hdl : dropLine (σ.drop k) = σ.drop (k + (takeLine (st.buf.drop st.bn)).1.length) := by
      unfold dropLine
      rw [htlr, hdropk]
    by_cases hl : st.linenum < first
    · rw [if_pos hl]
      rw [absScan_skipstep hrne hl, hdl, htlr, he]
      have hih := ih { st with
          bn := st.bn + (takeLine (st.buf.drop st.bn)).1.length,
          linenum := st.linenum + (if (takeLine (st.buf.drop st.bn)).2 then 1 else 0) }
        (k + (takeLine (st.buf.drop st.bn)).1.length)
        ⟨htail2, by simp only []; omega⟩ (by simp only []; omega)
      simp only [he, if_pos trivial] at hih ⊢
      exact hih
    · rw [if_neg hl]
      rw [he]
      simp only [if_pos trivial]
      by_cases hll : st.linenum = last
      · rw [if_pos hll]
        rw [absScan_break hrne hl (by rw [htlr]) hll, htlr]
        exact ⟨rfl, rfl⟩
      · rw [if_neg hll]
        rw [absScan_emitstep hrne hl (by rw [htlr]) hll, hdl, htlr]
        have hih := ih { st with
            bn := st.bn + (takeLine (st.buf.drop st.bn)).1.length,
            linenum := st.linenum + 1,
            showThis := shw }
          (k + (takeLine (st.buf.drop st.bn)).1.length)
          ⟨htail2, by simp only []; omega⟩ (by simp only []; omega)
        simp only [] at hih
        constructor
        · simp only [flatOut_append, flatOut]
          rw [hih.1]
        · simp only [lnums_append, lnums]
          rw [hih.2]
  · -- no newline in the window: the buffered loop emits a partial segment
    have hsegw : (takeLine (st.buf.drop st.bn)).1 = st.buf.drop st.bn :=
      takeLine_noeol_eq (by simpa using he)
    have hkdecomp : σ.drop k = st.buf.drop st.bn ++ σ.drop st.pos := htail.symm
    by_cases hl : st.linenum < first
    · rw [if_pos hl]
      have hmid : absScan shw first last (st.buf.drop st.bn ++ σ.drop st.pos)
          st.linenum st.showThis =
          absScan shw first last (σ.drop st.pos) st.linenum st.showThis :=
        absScan_mid_skip (σ.drop st.pos) hwne (by simpa using he) hl
      rw [hkdecomp, hmid]
      have hih := ih { st with
          bn := st.bn + (takeLine (st.buf.drop st.bn)).1.length,
          linenum := st.linenum + (if (takeLine (st.buf.drop st.bn)).2 then 1 else 0) }
        (k + (takeLine (st.buf.drop st.bn)).1.length)
        ⟨htail2, by simp only []; omega⟩ (by simp only []; omega)
      simp only [he, Bool.false_eq_true, if_false, Nat.add_zero] at hih ⊢
      have hx : σ.drop (k + (takeLine (st.buf.drop st.bn)).1.length) = σ.drop st.pos := by
        rw [← hdropk, hkdecomp, hsegw, List.drop_left]
      rw [hx] at hih
      exact hih
    · rw [if_neg hl]
      rw [if_neg he]
      have hmid : flatOut (absScan shw first last
            (st.buf.drop st.bn ++ σ.drop st.pos) st.linenum st.showThis).out =
          flatOut (if st.showThis then [OutItem.lnum st.linenum] else []) ++
            st.buf.drop st.bn ++
            flatOut (absScan shw first last (σ.drop st.pos) st.linenum false).out ∧
          lnums (absScan shw first last
            (st.buf.drop st.bn ++ σ.drop st.pos) st.linenum st.showThis).out =
          lnums (if st.showThis then [OutItem.lnum st.linenum] else []) ++
            lnums (absScan shw first last (σ.drop st.pos) st.linenum false).out :=
        absScan_mid_emit (σ.drop st.pos) hwne (by simpa using he) hl
      rw [hkdecomp]
      have hih := ih { st with
          bn := st.bn + (takeLine (st.buf.drop st.bn)).1.length,
          showThis := false }
        (k + (takeLine (st.buf.drop st.bn)).1.length)
        ⟨htail2, by simp only []; omega⟩ (by simp only []; omega)
      simp only [] at hih
      have hx : σ.drop (k + (takeLine (st.buf.drop st.bn)).1.length) = σ.drop st.pos := by
        rw [← hdropk, hkdecomp, hsegw, List.drop_left]
      rw [hx] at hih
      constructor
      · rw [hmid.1]
        simp only [flatOut_append, flatOut]
        rw [hih.1, hsegw]
        simp [List.append_assoc]
      · rw [hmid.2]
        simp only [lnums_append, lnums]
        rw [hih.2]

theorem take_drop_self (l : List Char) (n : Nat) :
    l.take n ++ l.drop (l.take n).length = l := by
  rw [List.length_take]
  rcases Nat.le_total n l.length with h | h
  · rw [Nat.min_eq_left h, List.take_append_drop]
  · rw [Nat.min_eq_right h, List.drop_length, List.take_of_length_le h, List.append_nil]

theorem scanLoopF_abs (σ : List Char) (B : Nat) (shw : Bool) (first last : Nat)
    (hB : 1 ≤ B) :
    ∀ (fuel : Nat) (st : ScanSt) (k : Nat), StOk σ st k →
      (σ.length - st.pos) + (st.buf.length - st.bn) < fuel →
      flatOut (scanLoopF σ B shw first last fuel st).2 =
        flatOut (absScan shw first last (σ.drop k) st.linenum st.showThis).out ∧
      lnums (scanLoopF σ B shw first last fuel st).2 =
        lnums (absScan shw first last (σ.drop k) st.linenum st.showThis).out := by
  intro fuel
  induction fuel with
  | zero => intro st k _ hm; omega
  | succ fuel ih =>
    intro st k hok hm
    by_cases hwin : st.buf.length ≤ st.bn
    · -- the window is exhausted: refill it from the stream
      have hdw : st.buf.drop st.bn = [] := List.drop_eq_nil_of_le hwin
      have htail : σ.drop st.pos = σ.drop k := by
        have h1 := hok.1
        rw [hdw] at h1
        simpa using h1
      simp only [scanLoopF]
      rw [if_pos hwin]
      by_cases hch : (σ.drop st.pos).take B = []
      · rw [if_pos hch]
        have hnil : σ.drop st.pos = [] := by
          rcases List.take_eq_nil_iff.mp hch with h | h
          · omega
          · exact h
        have hknil : σ.drop k = [] := by rw [← htail, hnil]
        rw [hknil, absScan_nil]
        exact ⟨rfl, rfl⟩
      · rw [if_neg hch]
        have hclen : ((σ.drop st.pos).take B).length ≤ σ.length - st.pos := by
          have h2 : (σ.drop st.pos).length = σ.length - st.pos := List.length_drop _ _
          have h1 : ((σ.drop st.pos).take B).length ≤ (σ.drop st.pos).length := by
            rw [List.length_take]
            omega
          omega
        have hcpos : 1 ≤ ((σ.drop st.pos).take B).length := by
          rcases Nat.eq_zero_or_pos ((σ.drop st.pos).take B).length with h | h
          · exact absurd (List.eq_nil_of_length_eq_zero h) hch
          · exact h
        have hok2 : StOk σ { st with
            buf := (σ.drop st.pos).take B, bn := 0,
            pos := st.pos + ((σ.drop st.pos).take B).length,
            readN := ((σ.drop st.pos).take B).length } k := by
          constructor
          · show ((σ.drop st.pos).take B).drop 0 ++
                σ.drop (st.pos + ((σ.drop st.pos).take B).length) = σ.drop k
            rw [List.drop_zero, ← htail]
            have h4 : σ.drop (st.pos + ((σ.drop st.pos).take B).length) =
                (σ.drop st.pos).drop ((σ.drop st.pos).take B).length := by
              rw [List.drop_drop, Nat.add_comm]
            rw [h4, take_drop_self]
          · exact Nat.zero_le _
        have hcall := scanConsume_abs σ B shw first last fuel ih
          { st with
            buf := (σ.drop st.pos).take B,
            bn := 0,
            pos := st.pos + ((σ.drop st.pos).take B).length,
            readN := ((σ.drop st.pos).take B).length } k hok2
          (by simp only []; omega) (by simp only []; omega)
        exact hcall
    · have hbn : st.bn < st.buf.length := Nat.lt_of_not_le hwin
      simp only [scanLoopF]
      rw [if_neg hwin]
      exact scanConsume_abs σ B shw first last fuel ih st k hok hbn (by omega)

theorem scanLoop_abs (σ : List Char) (B : Nat) (shw : Bool) (first last : Nat)
    (hB : 1 ≤ B) (st : ScanSt) (k : Nat) (hok : StOk σ st k) :
    flatOut (scanLoop σ B shw first last st).2 =
      flatOut (absScan shw first last (σ.drop k) st.linenum st.showThis).out ∧
    lnums (scanLoop σ B shw first last st).2 =
      lnums (absScan shw first last (σ.drop k) st.linenum st.showThis).out :=
  scanLoopF_abs σ B shw first last hB _ st k hok (by omega)

theorem dropLine_length_lt {l : List Char} (h : l ≠ []) :
    (dropLine l).length < l.length := by
  unfold dropLine
  rw [List.length_drop]
  have h1 := takeLine_length_pos h
  have h2 : 0 < l.length := List.length_pos.mpr h
  omega

theorem lineCountF_irrel : ∀ (f1 f2 : Nat) (l : List Char), l.length < f1 →
    l.length < f2 → lineCountF f1 l = lineCountF f2 l := by
  intro f1
  induction f1 with
  | zero => intro f2 l h1 _; omega
  | succ f1 ih =>
    intro f2 l h1 h2
    cases f2 with
    | zero => omega
    | succ f2 =>
      simp only [lineCountF]
      by_cases hl : l = []
      · rw [if_pos hl, if_pos hl]
      · rw [if_neg hl, if_neg hl]
        have hlt : (dropLine l).length < l.length := dropLine_length_lt hl
        rw [ih f2 (dropLine l) (by omega) (by omega)]

theorem lineCount_step {l : List Char} (h : l ≠ []) :
    lineCount l = lineCount (dropLine l) + 1 := by
  show lineCountF (l.length + 1) l = _
  simp only [lineCountF]
  rw [if_neg h]
  have hlt : (dropLine l).length < l.length := dropLine_length_lt h
  rw [lineCountF_irrel l.length ((dropLine l).length + 1) (dropLine l) (by omega) (by omega)]
  rfl

theorem lineCount_nil_eq : lineCount [] = 0 := rfl

theorem ne_nil_of_lineCount_pos {l : List Char} (h : 1 ≤ lineCount l) : l ≠ [] := by
  intro hl
  rw [hl, lineCount_nil_eq] at h
  omega

theorem takeLine_eol_of_two {l : List Char} (h : 2 ≤ lineCount l) :
    (takeLine l).2 = true := by
  have hl : l ≠ [] := ne_nil_of_lineCount_pos (by omega)
  by_contra he
  have he2 : (takeLine l).2 = false := by
    cases h3 : (takeLine l).2
    · rfl
    · exact absurd h3 he
  have hdl : dropLine l = [] := by
    unfold dropLine
    rw [takeLine_noeol_eq he2]
    simp
  rw [lineCount_step hl, hdl, lineCount_nil_eq] at h
  omega

theorem lineCount_dropL : ∀ (n : Nat) (l : List Char), n ≤ lineCount l →
    lineCount (dropL n l) = lineCount l - n := by
  intro n
  induction n with
  | zero => intro l _; rfl
  | succ n ih =>
    intro l h
    have hl : l ≠ [] := ne_nil_of_lineCount_pos (by omega)
    have hstep := lineCount_step hl
    show lineCount (dropL n (dropLine l)) = _
    rw [ih (dropLine l) (by omega), hstep]
    omega

theorem absScan_skip (shw : Bool) (first last : Nat) :
    ∀ (n : Nat) (r : List Char) (lin : Nat) (s : Bool),
      lin + n ≤ first → n < lineCount r →
      absScan shw first last r lin s =
        absScan shw first last (dropL n r) (lin + n) s := by
  intro n
  induction n with
  | zero => intro r lin s _ _; rfl
  | succ n ih =>
    intro r lin s h1 h2
    have hr : r ≠ [] := ne_nil_of_lineCount_pos (by omega)
    have he : (takeLine r).2 = true := takeLine_eol_of_two (by omega)
    rw [absScan_skipstep hr (show lin < first by omega), he]
    simp only [if_pos trivial]
    have hlc : lineCount r = lineCount (dropLine r) + 1 := lineCount_step hr
    rw [ih (dropLine r) (lin + 1) s (by omega) (by omega)]
    show _ = absScan shw first last (dropL n (dropLine r)) (lin + (n + 1)) s
    have harith : lin + 1 + n = lin + (n + 1) := by omega
    rw [harith]

theorem absScan_one (shw : Bool) (N : Nat) {r : List Char} (hr : r ≠ []) :
    flatOut (absScan shw N N r N shw).out =
      (if shw then fmtLineNum N else []) ++ (takeLine r).1 ∧
    lnums (absScan shw N N r N shw).out = (if shw then [N] else []) := by
  by_cases he : (takeLine r).2
  · rw [absScan_break hr (by omega) he rfl]
    cases shw <;> simp [flatOut, lnums, flatOut_append, lnums_append]
  · have he2 : (takeLine r).2 = false := by
      cases h3 : (takeLine r).2
      · rfl
      · exact absurd h3 he
    rw [absScan_lastpart hr (by omega) he2, takeLine_noeol_eq he2]
    cases shw <;> simp [flatOut, lnums, flatOut_append, lnums_append]

theorem lineCount_pos_of_ne_nil {l : List Char} (h : l ≠ []) : 1 ≤ lineCount l := by
  rw [lineCount_step h]
  omega

theorem absScan_count (first last : Nat) :
    ∀ (n : Nat) (r : List Char) (lin : Nat), lineCount r ≤ n →
      first ≤ lin → lin ≤ last →
      lnums (absScan true first last r lin true).out =
        List.range' lin (min (last - lin + 1) (lineCount r)) := by
  intro n
  induction n with
  | zero =>
    intro r lin h0 _ _
    have hr : r = [] := by
      by_contra hne
      have := lineCount_pos_of_ne_nil hne
      omega
    subst hr
    rw [absScan_nil]
    simp [lnums, lineCount_nil_eq]
  | succ n ih =>
    intro r lin h0 hf hl
    by_cases hr : r = []
    · subst hr
      rw [absScan_nil]
      simp [lnums, lineCount_nil_eq]
    · have h1 : 1 ≤ lineCount r := lineCount_pos_of_ne_nil hr
      by_cases he : (takeLine r).2
      · by_cases hll : lin = last
        · rw [absScan_break hr (by omega) he hll]
          have hmin : min (last - lin + 1) (lineCount r) = 1 := by
            subst hll
            omega
          rw [hmin]
          simp [lnums, lnums_append, List.range']
        · have hlt : lin < last := by omega
          rw [absScan_emitstep hr (by omega) he hll]
          have hstep := lineCount_step hr
          have hrec := ih (dropLine r) (lin + 1) (by omega) (by omega) (by omega)
          have hmin : min (last - lin + 1) (lineCount r) =
              min (last - (lin + 1) + 1) (lineCount (dropLine r)) + 1 := by omega
          rw [hmin]
          simp only [if_pos trivial, lnums_append, lnums, List.range']
          rw [hrec]
      · have he2 : (takeLine r).2 = false := by
          cases h3 : (takeLine r).2
          · rfl
          · exact absurd h3 he
        have hdl : dropLine r = [] := by
          unfold dropLine
          rw [takeLine_noeol_eq he2]
          simp
        have hlc : lineCount r = 1 := by
          rw [lineCount_step hr, hdl, lineCount_nil_eq]
        rw [absScan_lastpart hr (by omega) he2]
        have hmin : min (last - lin + 1) (lineCount r) = 1 := by omega
        rw [hmin]
        simp [lnums, lnums_append, List.range']

theorem processfile_single_out (σ : List Char) (B : Nat) (fl : LrgFlags)
    (canSeek bs : Bool) (a b : Nat) (txt : List Char)
    (h1 : 1 ≤ a) (hab : a ≤ b) (hmax : a ≤ LINENUM_MAX) :
    (lrg_processfile σ B fl canSeek bs [⟨a, b, txt⟩]).out =
      (scanLoop σ B fl.show_linenums a b (initSt fl)).2 := by
  have hrep : reposition σ B bs canSeek a (initSt fl) = .ok (initSt fl) := by
    unfold reposition
    rw [if_neg]
    show ¬ a < 1
    omega
  unfold lrg_processfile
  simp only [runRanges, procRange]
  rw [if_neg (show ¬ b < a by omega)]
  rw [if_neg (show ¬ (initSt fl).eofAt < a by show ¬ LINENUM_MAX < a; omega)]
  rw [hrep]
  simp only [readErrorBlock]
  split_ifs
  all_goals simp [runRanges]

/-- C1: for every valid single-clause specification "N" (digits only,
value N with 1 <= N <= LINENUM_MAX) applied to a stream with at least N
lines, the parser produces the single range [N, N] and the engine emits
exactly the N-th line of the stream, prefixed by the line-number label
for N exactly once when line-number display is enabled and by nothing
otherwise. -/
theorem claim_C1 (ds σ : List Char) (N B : Nat) (fl : LrgFlags)
    (canSeek bs : Bool)
    (hds : allDigits ds = true) (hne : ds ≠ []) (hval : digitsVal ds = N)
    (h1 : 1 ≤ N) (hmax : N ≤ LINENUM_MAX) (hB : 1 ≤ B)
    (hlc : N ≤ lineCount σ) :
    lrg_parse_lines ds = .ok [⟨N, N, ds⟩] ∧
    flatOut (lrg_processfile σ B fl canSeek bs [⟨N, N, ds⟩]).out =
      (if fl.show_linenums then fmtLineNum N else []) ++ nthLine σ N ∧
    lnums (lrg_processfile σ B fl canSeek bs [⟨N, N, ds⟩]).out =
      (if fl.show_linenums then [N] else []) := by
  subst hval
  refine ⟨parse_digits hds hne h1 hmax, ?_⟩
  have hout : (lrg_processfile σ B fl canSeek bs
      [⟨digitsVal ds, digitsVal ds, ds⟩]).out =
      (scanLoop σ B fl.show_linenums (digitsVal ds) (digitsVal ds) (initSt fl)).2 :=
    processfile_single_out σ B fl canSeek bs (digitsVal ds) (digitsVal ds) ds
      h1 le_rfl hmax
  have habs := scanLoop_abs σ B fl.show_linenums (digitsVal ds) (digitsVal ds)
    hB (initSt fl) 0 ⟨rfl, Nat.le_refl 0⟩
  rw [show (initSt fl).linenum = 1 from rfl,
    show (initSt fl).showThis = fl.show_linenums from rfl,
    List.drop_zero] at habs
  rw [absScan_skip fl.show_linenums (digitsVal ds) (digitsVal ds)
    (digitsVal ds - 1) σ 1 fl.show_linenums (by omega) (by omega)] at habs
  rw [show 1 + (digitsVal ds - 1) = digitsVal ds by omega] at habs
  have hrne : dropL (digitsVal ds - 1) σ ≠ [] := by
    apply ne_nil_of_lineCount_pos
    rw [lineCount_dropL (digitsVal ds - 1) σ (by omega)]
    omega
  have hone := absScan_one fl.show_linenums (digitsVal ds) hrne
  constructor
  · rw [hout, habs.1, hone.1]
    rfl
  · rw [hout, habs.2, hone.2]

theorem claim_C1_witness :
    lrg_parse_lines ['2'] =
      .ok [⟨2, 2, ['2']⟩] ∧
    flatOut (lrg_processfile ['x', '\n', 'y', '\n'] 4 ⟨true, false, false⟩
        true false [⟨2, 2, ['2']⟩]).out =
      (if (⟨true, false, false⟩ : LrgFlags).show_linenums then fmtLineNum 2
        else []) ++ nthLine ['x', '\n', 'y', '\n'] 2 ∧
    lnums (lrg_processfile ['x', '\n', 'y', '\n'] 4 ⟨true, false, false⟩
        true false [⟨2, 2, ['2']⟩]).out =
      (if (⟨true, false, false⟩ : LrgFlags).show_linenums then [2] else []) :=
  claim_C1 ['2'] ['x', '\n', 'y', '\n'] 2 4 ⟨true, false, false⟩ true false
    (by decide) (by decide) (by decide) (by decide) (by decide) (by decide)
    (by decide)

theorem processfile_count (σ : List Char) (B : Nat) (fl : LrgFlags)
    (canSeek bs : Bool) (a b : Nat) (txt : List Char)
    (h1 : 1 ≤ a) (hab : a ≤ b) (hmax : a ≤ LINENUM_MAX) (hB : 1 ≤ B)
    (hfl : fl.show_linenums = true) (hlc : a ≤ lineCount σ) :
    (lnums (lrg_processfile σ B fl canSeek bs [⟨a, b, txt⟩]).out).length =
      min b (lineCount σ) - a + 1 := by
  rw [processfile_single_out σ B fl canSeek bs a b txt h1 hab hmax]
  have habs := scanLoop_abs σ B fl.show_linenums a b hB (initSt fl) 0
    ⟨rfl, Nat.le_refl 0⟩
  rw [show (initSt fl).linenum = 1 from rfl,
    show (initSt fl).showThis = fl.show_linenums from rfl,
    List.drop_zero, hfl] at habs
  rw [hfl]
  rw [absScan_skip true a b (a - 1) σ 1 true (by omega) (by omega)] at habs
  rw [show 1 + (a - 1) = a by omega] at habs
  rw [habs.2]
  rw [absScan_count a b (lineCount (dropL (a - 1) σ)) (dropL (a - 1) σ) a
    le_rfl le_rfl hab]
  rw [lineCount_dropL (a - 1) σ (by omega)]
  simp only [List.length_range']
  omega

/-- C3: a clause "N~K" (with K defaulting to 3 when the radius is
omitted) parses to the range [max(1, N-K), N+K] — in particular K = 0
yields [N, N] and a computed lower bound of 0 is clamped to 1 rather
than rejected — and on a stream whose last line number lastLine is at
least max(1, N-K), with line numbering enabled, the number of lines
emitted for that clause is exactly
min(N+K, lastLine) - max(1, N-K) + 1. -/
theorem claim_C3 (dsN dsK σ : List Char) (N K B : Nat) (fl : LrgFlags)
    (canSeek bs : Bool)
    (hN1 : allDigits dsN = true) (hN2 : dsN ≠ []) (hNval : digitsVal dsN = N)
    (hN3 : 1 ≤ N)
    (hK : (dsK = [] ∧ K = 3) ∨
      (allDigits dsK = true ∧ dsK ≠ [] ∧ digitsVal dsK = K))
    (hsum : N + K ≤ LINENUM_MAX) (hB : 1 ≤ B)
    (hfl : fl.show_linenums = true)
    (hlc : max 1 (N - K) ≤ lineCount σ) :
    lrg_parse_lines (dsN ++ '~' :: dsK) =
      .ok [⟨max 1 (N - K), N + K, dsN ++ '~' :: dsK⟩] ∧
    (lnums (lrg_processfile σ B fl canSeek bs
        [⟨max 1 (N - K), N + K, dsN ++ '~' :: dsK⟩]).out).length =
      min (N + K) (lineCount σ) - max 1 (N - K) + 1 := by
  subst hNval
  have hb : (if K < digitsVal dsN then digitsVal dsN - K else 1) =
      max 1 (digitsVal dsN - K) := by
    split_ifs <;> omega
  have hparse := parse_tilde hN1 hN2 hN3 (by omega) hK (by omega)
  rw [hb] at hparse
  refine ⟨hparse, ?_⟩
  exact processfile_count σ B fl canSeek bs (max 1 (digitsVal dsN - K))
    (digitsVal dsN + K) (dsN ++ '~' :: dsK) (by omega) (by omega) (by omega)
    hB hfl hlc

theorem claim_C3_witness :
    lrg_parse_lines ['4', '~', '1'] =
      .ok [⟨max 1 (4 - 1), 4 + 1, ['4', '~', '1']⟩] ∧
    (lnums (lrg_processfile ['a', '\n', 'b', '\n', 'c', '\n', 'd', '\n'] 3
        ⟨true, false, false⟩ true false
        [⟨max 1 (4 - 1), 4 + 1, ['4', '~', '1']⟩]).out).length =
      min (4 + 1) (lineCount ['a', '\n', 'b', '\n', 'c', '\n', 'd', '\n']) -
        max 1 (4 - 1) + 1 :=
  claim_C3 ['4'] ['1'] ['a', '\n', 'b', '\n', 'c', '\n', 'd', '\n'] 4 1 3
    ⟨true, false, false⟩ true false (by decide) (by decide) (by decide)
    (by decide) (Or.inr ⟨by decide, by decide, by decide⟩) (by decide)
    (by decide) (by decide) (by decide)
